import Mathlib

/-!
Verification development for the mppq graph core: the graph intermediate
representation, its structural transformation passes (`mppq/ir/morph.py`)
and the block-partitioning algorithm (`mppq/quantization/algorithm/training.py`).

Operations, variables and the graph are modelled as name-keyed records;
tensor values are modelled as rational vectors/matrices with an abstract
elementwise square-root function where the code calls `torch.sqrt`.
The graph-model primitives (`remove_operation`, `remove_variable`,
`get_downstream_operations`, ...) and the search engine live outside the
translated sources; they are modelled from the specification and marked
as such in their doc comments.
-/

/-- Values carried by variables and attributes: rational scalars,
integer tensors (with an is-int64 dtype flag, for the constant-format pass),
and rank-1/2/3 rational tensors. -/
inductive V where
  | num (q : ℚ)
  | itensor (isInt64 : Bool) (data : List Int)
  | vec (v : List ℚ)
  | mat (m : List (List ℚ))
  | cube (c : List (List (List ℚ)))
deriving DecidableEq

/-- A named edge-carrier: optional value, parameter flag, at most one
source operation and an ordered list of destination operations,
all referenced by name. -/
structure Variable where
  name : String
  value : Option V := none
  is_parameter : Bool := false
  source_op : Option String := none
  dest_ops : List String := []
deriving DecidableEq

/-- A named, typed graph node with attributes and ordered input/output
variable names. -/
structure Operation where
  name : String
  type : String
  attributes : List (String × V) := []
  inputs : List String := []
  outputs : List String := []
deriving DecidableEq

/-- The graph owns operations and variables through name-keyed,
insertion-ordered collections, plus the declared input/output names. -/
structure Graph where
  operations : List Operation := []
  vars : List Variable := []
  inputs : List String := []
  outputs : List String := []
deriving DecidableEq

def Graph.getOp (g : Graph) (n : String) : Option Operation :=
  g.operations.find? (fun op => op.name = n)

def Graph.getVar (g : Graph) (n : String) : Option Variable :=
  g.vars.find? (fun v => v.name = n)

def Graph.opNames (g : Graph) : List String :=
  g.operations.map (fun op => op.name)

def Graph.varNames (g : Graph) : List String :=
  g.vars.map (fun v => v.name)

/-- Duplicate removal keeping first occurrences (used where the source
materialises a set of operations). -/
def dedupFAux : List String → List String → List String
  | [], _ => []
  | a :: l, seen => if a ∈ seen then dedupFAux l seen else a :: dedupFAux l (a :: seen)

/-- Duplicate removal keeping first occurrences. -/
def dedupF (l : List String) : List String := dedupFAux l []

/-- Stable insertion of an element into a sorted list: it is placed before
the first element it compares less-or-equal to, hence before later equal
keys. -/
def insertStable (le : α → α → Bool) (x : α) : List α → List α
  | [] => [x]
  | y :: l => if le x y then x :: y :: l else y :: insertStable le x l

/-- Stable sort (insertion sort), matching the stability contract of the
sorting the source relies on. -/
def sortStable (le : α → α → Bool) : List α → List α
  | [] => []
  | x :: l => insertStable le x (sortStable le l)

/-- Modelled from the spec: the "downstream operations of X" collaborator
query — the operations consuming any output variable of `X`
(duplicates removed; the source materialises a set). -/
def Graph.downstreamOps (g : Graph) (op : Operation) : List String :=
  dedupF ((op.outputs.filterMap g.getVar).flatMap (fun v => v.dest_ops))

/-- Modelled from the spec: the "upstream operations of X" collaborator
query — the producers of `X`'s input variables (duplicates removed). -/
def Graph.upstreamOps (g : Graph) (op : Operation) : List String :=
  dedupF ((op.inputs.filterMap g.getVar).filterMap (fun v => v.source_op))

/-- Detachment applied to each operation record when removing a variable:
the variable leaves its producer's output list and every consumer's input
list. -/
def rvOpUpdate (v : Variable) (n : String) (op : Operation) : Operation :=
  let op1 := if v.source_op = some op.name then
      { op with outputs := op.outputs.erase n } else op
  if op.name ∈ v.dest_ops then
      { op1 with inputs := op1.inputs.filter (fun i => i ≠ n) } else op1

/-- Modelled from the spec: the `remove_variable` graph-model primitive.
Removing a variable detaches every reference to it — it is dropped from its
source operation's output list, from the input list of each consumer, from
the name-keyed variable collection and from the declared input/output sets.
Missing names are returned unchanged (the source raises a lookup error; all
translated call sites invoke it on present variables). -/
def Graph.removeVariable (g : Graph) (n : String) : Graph :=
  match g.getVar n with
  | none => g
  | some v =>
    { operations := g.operations.map (rvOpUpdate v n),
      vars := g.vars.eraseP (fun w => w.name = n),
      inputs := g.inputs.filter (fun i => i ≠ n),
      outputs := g.outputs.filter (fun i => i ≠ n) }

/-- Detachment applied to each variable record when removing an operation:
the operation leaves the consumer list of each of its input variables, and
each of its output variables loses its producer. -/
def roVarUpdate (op : Operation) (n : String) (v : Variable) : Variable :=
  let v1 := if v.name ∈ op.inputs then
      { v with dest_ops := v.dest_ops.filter (fun d => d ≠ n) } else v
  if v.name ∈ op.outputs then { v1 with source_op := none } else v1

/-- Modelled from the spec: the `remove_operation` graph-model primitive
(without coherence-keeping, the only form the translated passes use).
The operation is dropped from the name-keyed collection and detached from
its variables. Parameter variables are left behind as sourceless,
consumerless variables (collected later by the delete-isolated pass).
Missing names are returned unchanged. -/
def Graph.removeOperation (g : Graph) (n : String) : Graph :=
  match g.getOp n with
  | none => g
  | some op =>
    { g with
      operations := g.operations.eraseP (fun o => o.name = n),
      vars := g.vars.map (roVarUpdate op n) }

/-- Modelled from the spec: `append_variable` registers an already-built
variable in the graph's collection. -/
def Graph.appendVariable (g : Graph) (v : Variable) : Graph :=
  { g with vars := g.vars ++ [v] }

/-- Modelled from the spec: `append_operation` registers an already-built
operation in the graph's collection. -/
def Graph.appendOperation (g : Graph) (op : Operation) : Graph :=
  { g with operations := g.operations ++ [op] }

/-- Modelled from the spec: `mark_variable_as_graph_output` declares an
existing variable as a graph output. -/
def Graph.markVariableAsGraphOutput (g : Graph) (n : String) : Graph :=
  if n ∈ g.outputs then g else { g with outputs := g.outputs ++ [n] }

/-- Update the record of the operation named `n` in place. -/
def Graph.updateOp (g : Graph) (n : String) (f : Operation → Operation) : Graph :=
  { g with operations := g.operations.map (fun op => if op.name = n then f op else op) }

/-- Update the record of the variable named `n` in place. -/
def Graph.updateVar (g : Graph) (n : String) (f : Variable → Variable) : Graph :=
  { g with vars := g.vars.map (fun v => if v.name = n then f v else v) }

/-- The parameter inputs of an operation: its input variables carrying the
parameter flag (the spec defines parameters as the marked subsequence of
the inputs). -/
def Graph.opParameters (g : Graph) (op : Operation) : List Variable :=
  (op.inputs.filterMap g.getVar).filter (fun v => v.is_parameter)

/-!  Search engine (modelled from the spec, §4.2). -/

/-- One expansion step of a downstream reachability closure. -/
def Graph.downFrontier (g : Graph) (n : String) : List String :=
  match g.getOp n with
  | none => []
  | some op => g.downstreamOps op

/-- Modelled from the spec: worklist closure of the downstream-successor
relation, fuelled by the operation count. -/
def Graph.downClosureAux (g : Graph) : Nat → List String → List String → List String
  | 0, _, acc => acc
  | _ + 1, [], acc => acc
  | fuel + 1, n :: rest, acc =>
    if n ∈ acc then g.downClosureAux fuel rest acc
    else g.downClosureAux fuel (rest ++ g.downFrontier n) (acc ++ [n])

/-- All operations reachable downstream from `n`, including `n` itself. -/
def Graph.downClosure (g : Graph) (n : String) : List String :=
  g.downClosureAux (g.operations.length + 1) [n] []

/-- Reachability: `b` lies (weakly) downstream of `a`. -/
def Graph.reaches (g : Graph) (a b : String) : Bool :=
  b ∈ g.downClosure a

/-- Modelled from the spec: opset matching returns the set of all operations
lying on any path from a start-satisfying node to an end-satisfying node in
the given direction.  Specialised to the equality predicates used by the
block builder (with an always-true membership predicate), an operation lies
on such a path exactly when it is reachable from the start and reaches the
end. -/
def Graph.opsetMatching (g : Graph) (sp ep : String) : List String :=
  g.opNames.filter (fun n => g.reaches sp n ∧ g.reaches n ep)

/-- Modelled from the spec: downward path matching.  From the current node,
each downstream successor satisfying the end predicate completes a path;
successors accepted by the relay predicate extend the path recursively,
terminating at the first end-satisfying node. -/
def Graph.pathsFrom (g : Graph) (rp : Operation → Operation → Bool)
    (ep : Operation → Bool) : Nat → Operation → List (List String)
  | 0, _ => []
  | fuel + 1, cur =>
    (g.downstreamOps cur).flatMap (fun nn =>
      match g.getOp nn with
      | none => []
      | some nxt =>
        if ep nxt then [[nn]]
        else if rp cur nxt then
          (g.pathsFrom rp ep fuel nxt).map (fun p => nn :: p)
        else [])

/-- Modelled from the spec: path matching from every start-satisfying
operation, in the downward direction. -/
def Graph.pathMatching (g : Graph) (sp : Operation → Bool)
    (rp : Operation → Operation → Bool) (ep : Operation → Bool) :
    List (List String) :=
  (g.operations.filter sp).flatMap (fun s =>
    (g.pathsFrom rp ep (g.operations.length + 1) s).map (fun p => s.name :: p))

/-!  Block builder (translated from
`mppq/quantization/algorithm/training.py`). -/

/-- The lazy-sorting priority queue of the block builder: pending entries,
the set of every operation ever pushed, a pop cursor and the lazy-sort
flag. -/
structure PriorityQueue where
  _data : List (Int × String) := []
  _ops : List String := []
  _idx : Nat := 0
  _lazy_tag : Bool := true
deriving DecidableEq

/-- Push an entry unless the operation was ever pushed before. -/
def PriorityQueue.push (q : PriorityQueue) (depth : Int) (op : String) :
    PriorityQueue :=
  if op ∈ q._ops then q
  else { q with _data := q._data ++ [(depth, op)], _ops := q._ops ++ [op],
                _lazy_tag := false }

/-- Pop the entry at the cursor after re-establishing the sort order
(stable sort by depth).  Returns `none` where the source raises an index
error. -/
def PriorityQueue.pop (q : PriorityQueue) : Option ((Int × String) × PriorityQueue) :=
  let data := if q._lazy_tag then q._data
              else sortStable (fun a b => a.1 ≤ b.1) q._data
  if h : q._idx < data.length then
    some (data.get ⟨q._idx, h⟩,
          { q with _data := data, _idx := q._idx + 1, _lazy_tag := true })
  else none

def PriorityQueue.empty (q : PriorityQueue) : Bool :=
  q._idx ≥ q._data.length

/-- A block: start operation, end operation and the relay operations. -/
structure TrainableBlock where
  sp : String
  ep : String
  rps : List String
deriving DecidableEq

/-- Topological depth of every operation, by dynamic programming over the
topological order: operations without upstream producers get depth 0, the
rest one more than the maximum upstream depth. -/
def computeDepth (g : Graph) (topo : List String) : List (String × Int) :=
  topo.foldl (fun acc n =>
    match g.getOp n with
    | none => acc
    | some op =>
      let ups := g.upstreamOps op
      if ups.length = 0 then acc ++ [(n, 0)]
      else acc ++ [(n, (ups.map (fun u => ((acc.lookup u).getD 0))).foldl max 0 + 1)])
    []

/-- Depth lookup (absent operations default to 0). -/
def depthOf (g : Graph) (topo : List String) (n : String) : Int :=
  ((computeDepth g topo).lookup n).getD 0

/-- Chain step of the block builder: if the current endpoint has exactly one
downstream consumer and that consumer has exactly one non-parameter input
and exactly one upstream operation, it becomes the next endpoint. -/
def findCoherentEp (g : Graph) (n : String) : Option String :=
  match g.getOp n with
  | none => none
  | some op =>
    match g.downstreamOps op with
    | [f] =>
      match g.getOp f with
      | none => none
      | some fop =>
        if fop.inputs.length - (g.opParameters fop).length = 1 ∧
            (g.upstreamOps fop).length = 1 then some f
        else none
    | _ => none

/-- Loop of the blocking-endpoint search: pop the depth-least pending
operation; if it empties the queue and all of its more-than-one upstream
operations were ever enqueued, it blocks every path and is returned;
otherwise its successors are pushed and the search continues.  `none`
signals fuel exhaustion, `some none` an exhausted queue without a blocking
endpoint. -/
def fmieLoop (g : Graph) (depth : String → Int) :
    PriorityQueue → Nat → Option (Option String)
  | _, 0 => none
  | q, fuel + 1 =>
    if q.empty then some none
    else
      match q.pop with
      | none => some none
      | some ((_, cur), q1) =>
        let ups := match g.getOp cur with
          | none => []
          | some curOp => g.upstreamOps curOp
        if q1.empty ∧ (∀ u ∈ ups, u ∈ q1._ops) ∧ ups.length > 1 then
          some (some cur)
        else
          let q2 := (g.downFrontier cur).foldl
            (fun q d => q.push (depth d) d) q1
          fmieLoop g depth q2 fuel

/-- Blocking-endpoint search (`_find_multi_input_ep`): seed the queue with
the starting operation, pop it immediately, push its successors and run the
depth-ordered expansion. -/
def findMultiInputEp (g : Graph) (depth : String → Int) (n : String)
    (fuel : Nat) : Option (Option String) :=
  let q0 := PriorityQueue.push {} (depth n) n
  match q0.pop with
  | none => some none
  | some (_, q1) =>
    let q2 := (g.downFrontier n).foldl (fun q d => q.push (depth d) d) q1
    fmieLoop g depth q2 fuel

/-- Materialise the block between `sp` and `ep`: the opset between them,
ordered by topological index. -/
def createBlock (g : Graph) (topo : List String) (sp ep : String) :
    TrainableBlock :=
  if sp = ep then ⟨sp, ep, [sp]⟩
  else
    let rps := g.opsetMatching sp ep
    let pairs := sortStable (fun a b => a.1 ≤ b.1)
      (rps.map (fun op => (topo.indexOf op, op)))
    ⟨sp, ep, pairs.map (fun p => p.2)⟩

/-- Greedy extension loop of `BlockBuilder.build`: chain through coherent
single-consumer endpoints, otherwise search for the nearest blocking
multi-input endpoint; stop when none exists or the candidate would exceed
the depth limit. -/
def buildLoop (g : Graph) (topo : List String) (depth : String → Int)
    (limit : Int) (sp : String) : String → Nat → TrainableBlock
  | ep, 0 => createBlock g topo sp ep
  | ep, fuel + 1 =>
    let futureEp :=
      if (match g.getOp ep with
          | none => []
          | some op => g.downstreamOps op).length ≤ 1 then
        findCoherentEp g ep
      else
        (findMultiInputEp g depth ep (g.operations.length + 1)).getD none
    match futureEp with
    | none => createBlock g topo sp ep
    | some f =>
      if depth f - depth sp > limit then createBlock g topo sp ep
      else buildLoop g topo depth limit sp f fuel

/-- `BlockBuilder.build`: solve the best block from the given operation
under the depth limit. -/
def build (g : Graph) (topo : List String) (seed : String) (limit : Int) :
    TrainableBlock :=
  buildLoop g topo (depthOf g topo) limit seed seed (g.operations.length + 1)

/-- The diamond graph of the block-invariant test: operations `A → B`,
`A → C`, `B → D`, `C → D`, with `B` and `C` unary chain operations and `D`
the reconvergence point producing the declared output. -/
def diamondGraph : Graph :=
  { operations :=
      [{ name := "A", type := "Relu", inputs := ["x"], outputs := ["va"] },
       { name := "B", type := "Relu", inputs := ["va"], outputs := ["vb"] },
       { name := "C", type := "Relu", inputs := ["va"], outputs := ["vc"] },
       { name := "D", type := "Add", inputs := ["vb", "vc"], outputs := ["vd"] }],
    vars :=
      [{ name := "x", dest_ops := ["A"] },
       { name := "va", source_op := some "A", dest_ops := ["B", "C"] },
       { name := "vb", source_op := some "B", dest_ops := ["D"] },
       { name := "vc", source_op := some "C", dest_ops := ["D"] },
       { name := "vd", source_op := some "D", dest_ops := [] }],
    inputs := ["x"],
    outputs := ["vd"] }

/-- Topological order of the diamond graph. -/
def diamondTopo : List String := ["A", "B", "C", "D"]

/-- C1: for the diamond graph `A→B, A→C, B→D, C→D` with `B` and `C` unary
single-consumer chains, `BlockBuilder.build(A, limit=3)` returns the block
with start `A`, end `D` (the nearest multi-input operation blocking every
path from `A` to the graph outputs) and relay set `{A, B, C, D}` ordered by
topological index. -/
theorem fmie_diamond_build_block :
    build diamondGraph diamondTopo "A" 3 =
      { sp := "A", ep := "D", rps := ["A", "B", "C", "D"] } := by
  decide

/-- The start and end fields of a materialised block are the given
endpoints. -/
theorem createBlock_sp_ep (g : Graph) (topo : List String) (sp ep : String) :
    (createBlock g topo sp ep).sp = sp ∧ (createBlock g topo sp ep).ep = ep := by
  unfold createBlock
  split <;> simp

/-- Loop invariant of `build`: the start never changes and the endpoint is
only advanced while its depth stays within the limit. -/
theorem buildLoop_invariant (g : Graph) (topo : List String)
    (depth : String → Int) (limit : Int) (sp : String) :
    ∀ (fuel : Nat) (ep : String), depth ep - depth sp ≤ limit →
      (buildLoop g topo depth limit sp ep fuel).sp = sp ∧
      depth (buildLoop g topo depth limit sp ep fuel).ep - depth sp ≤ limit := by
  intro fuel
  induction fuel with
  | zero =>
    intro ep h
    have hc := createBlock_sp_ep g topo sp ep
    simp only [buildLoop]
    exact ⟨hc.1, by rw [hc.2]; exact h⟩
  | succ n ih =>
    intro ep h
    simp only [buildLoop]
    split
    · have hc := createBlock_sp_ep g topo sp ep
      exact ⟨hc.1, by rw [hc.2]; exact h⟩
    · rename_i f _
      split
      · have hc := createBlock_sp_ep g topo sp ep
        exact ⟨hc.1, by rw [hc.2]; exact h⟩
      · rename_i hle
        exact ih f (by omega)

/-- C6: for every seed operation and every limit `d ≥ 0`, the block returned
by `BlockBuilder.build` starts at the seed and its endpoint's topological
depth exceeds the seed's by at most `d`: the extension loop only accepts a
candidate endpoint within the bound and stops otherwise. -/
theorem build_sp_eq_seed_and_depth_le_limit (g : Graph) (topo : List String)
    (seed : String) (limit : Int) (h : 0 ≤ limit) :
    (build g topo seed limit).sp = seed ∧
    depthOf g topo (build g topo seed limit).ep - depthOf g topo seed ≤ limit := by
  exact buildLoop_invariant g topo (depthOf g topo) limit seed
    (g.operations.length + 1) seed (by omega)

/-- Witness for C6 at the diamond graph with limit 3. -/
theorem build_sp_eq_seed_and_depth_le_limit_witness :
    (build diamondGraph diamondTopo "A" 3).sp = "A" ∧
    depthOf diamondGraph diamondTopo (build diamondGraph diamondTopo "A" 3).ep -
      depthOf diamondGraph diamondTopo "A" ≤ 3 :=
  build_sp_eq_seed_and_depth_le_limit diamondGraph diamondTopo "A" 3 (by decide)

/-- Stable insertion grows a list by one element. -/
theorem insertStable_length (le : α → α → Bool) (x : α) (l : List α) :
    (insertStable le x l).length = l.length + 1 := by
  induction l with
  | nil => rfl
  | cons y l ih =>
    simp only [insertStable]
    split <;> simp [ih]

/-- Stable sorting preserves length. -/
theorem sortStable_length (le : α → α → Bool) (l : List α) :
    (sortStable le l).length = l.length := by
  induction l with
  | nil => rfl
  | cons x l ih => simp [sortStable, insertStable_length, ih]

/-- Well-formedness of a priority queue relative to a graph: no operation
pushed twice, entry count equals pushed-set size, pop cursor in range and
every pushed name names a graph operation. -/
structure QInv (g : Graph) (q : PriorityQueue) : Prop where
  nodup : q._ops.Nodup
  len_eq : q._data.length = q._ops.length
  idx_le : q._idx ≤ q._data.length
  subset : ∀ n ∈ q._ops, n ∈ g.opNames

/-- Downstream closedness: successor queries stay inside the graph's
operation collection. -/
def ClosedGraph (g : Graph) : Prop :=
  ∀ op ∈ g.operations, ∀ d ∈ g.downstreamOps op, d ∈ g.opNames

theorem push_preserves_QInv {g : Graph} {q : PriorityQueue} (hq : QInv g q)
    (d : Int) (n : String) (hn : n ∈ g.opNames) : QInv g (q.push d n) := by
  unfold PriorityQueue.push
  split
  · exact hq
  · rename_i hmem
    refine ⟨?_, ?_, ?_, ?_⟩
    · simpa [List.nodup_append] using ⟨hq.nodup, hmem⟩
    · simp [hq.len_eq]
    · have := hq.idx_le
      simp only [List.length_append, List.length_cons, List.length_nil]
      omega
    · intro m hm
      rcases List.mem_append.mp hm with h | h
      · exact hq.subset m h
      · simp only [List.mem_singleton] at h
        exact h ▸ hn

theorem pushAll_preserves_QInv {g : Graph} (l : List String)
    (hl : ∀ n ∈ l, n ∈ g.opNames) (depth : String → Int) :
    ∀ (q : PriorityQueue), QInv g q →
      QInv g (l.foldl (fun q d => q.push (depth d) d) q) := by
  induction l with
  | nil => intro q hq; exact hq
  | cons a l ih =>
    intro q hq
    exact ih (fun n hn => hl n (List.mem_cons_of_mem a hn))
      _ (push_preserves_QInv hq _ a (hl a (List.mem_cons_self a l)))

theorem pushAll_idx (l : List String) (depth : String → Int) :
    ∀ (q : PriorityQueue),
      (l.foldl (fun q d => q.push (depth d) d) q)._idx = q._idx := by
  induction l with
  | nil => intro q; rfl
  | cons a l ih =>
    intro q
    rw [List.foldl_cons, ih]
    unfold PriorityQueue.push
    split <;> rfl

theorem pop_some_of_not_empty {q : PriorityQueue} (h : q.empty = false) :
    ∃ e q1, q.pop = some (e, q1) ∧ q1._idx = q._idx + 1 ∧
      q1._data.length = q._data.length ∧ q1._ops = q._ops := by
  have hidx : q._idx < q._data.length := by
    unfold PriorityQueue.empty at h
    simpa using h
  unfold PriorityQueue.pop
  have hdl : (if q._lazy_tag then q._data
      else sortStable (fun a b => a.1 ≤ b.1) q._data).length =
      q._data.length := by
    split
    · rfl
    · exact sortStable_length _ _
  have h2 : q._idx < (if q._lazy_tag then q._data
      else sortStable (fun a b => a.1 ≤ b.1) q._data).length := by
    omega
  rw [dif_pos h2]
  exact ⟨_, _, rfl, rfl, by simpa using hdl, rfl⟩

theorem QInv_ops_length_le {g : Graph} {q : PriorityQueue} (hq : QInv g q) :
    q._ops.length ≤ g.opNames.length :=
  ((hq.nodup.subperm (fun _ h => hq.subset _ h)).length_le)

/-- The fuelled blocking-endpoint loop terminates with a definitive answer
whenever the fuel exceeds the number of operations not yet popped: each
iteration advances the pop cursor, the cursor never exceeds the entry count
and entries are never duplicated. -/
theorem fmieLoop_isSome (g : Graph) (depth : String → Int)
    (hg : ClosedGraph g) :
    ∀ (fuel : Nat) (q : PriorityQueue), QInv g q →
      g.opNames.length + 1 - q._idx ≤ fuel →
      (fmieLoop g depth q fuel).isSome := by
  intro fuel
  induction fuel with
  | zero =>
    intro q hq hfuel
    exfalso
    have h1 : q._ops.length ≤ g.opNames.length := QInv_ops_length_le hq
    have h2 := hq.idx_le
    have h3 := hq.len_eq
    omega
  | succ n ih =>
    intro q hq hfuel
    rw [fmieLoop]
    by_cases hemp : q.empty
    · simp [hemp]
    · have hemp' : q.empty = false := by simpa using hemp
      obtain ⟨e, q1, hpop, hidx, hlen, hops⟩ := pop_some_of_not_empty hemp'
      rw [hpop]
      simp only [hemp', Bool.false_eq_true, if_false]
      split
      · simp
      · have hq1 : QInv g q1 := by
          refine ⟨hops ▸ hq.nodup, ?_, ?_, hops ▸ hq.subset⟩
          · rw [hlen, hops]; exact hq.len_eq
          · unfold PriorityQueue.empty at hemp'
            simp only [ge_iff_le, decide_eq_false_iff_not, not_le] at hemp'
            omega
        have hfrontier : ∀ m ∈ g.downFrontier e.2, m ∈ g.opNames := by
          intro m hm
          unfold Graph.downFrontier at hm
          rcases hfind : g.getOp e.2 with _ | op
          · rw [hfind] at hm; simp at hm
          · rw [hfind] at hm
            exact hg op (List.mem_of_find?_eq_some hfind) m hm
        refine ih _ (pushAll_preserves_QInv _ hfrontier depth q1 hq1) ?_
        rw [pushAll_idx, hidx]
        have h1 : q._idx < q._data.length := by
          unfold PriorityQueue.empty at hemp'
          simpa using hemp'
        omega

/-- C10: the priority queue ignores any operation ever pushed before (even
after it was popped), so the blocking-endpoint search of
`BlockBuilder.build` enqueues and pops each operation at most once and
terminates on every finite, downstream-closed graph once the fuel reaches
the operation count. -/
theorem pq_push_once_and_fmie_terminates :
    (∀ (q : PriorityQueue) (d : Int) (n : String), n ∈ q._ops →
      q.push d n = q) ∧
    (∀ (g : Graph) (depth : String → Int) (n : String) (fuel : Nat),
      ClosedGraph g → n ∈ g.opNames → g.opNames.length ≤ fuel →
      (findMultiInputEp g depth n fuel).isSome) := by
  constructor
  · intro q d n hn
    unfold PriorityQueue.push
    simp [hn]
  · intro g depth n fuel hg hn hfuel
    unfold findMultiInputEp
    dsimp only
    have hq0 : QInv g (PriorityQueue.push {} (depth n) n) := by
      refine push_preserves_QInv ⟨?_, ?_, ?_, ?_⟩ (depth n) n hn <;> simp
    by_cases hemp : (PriorityQueue.push {} (depth n) n).empty
    · unfold PriorityQueue.push PriorityQueue.empty at hemp
      simp at hemp
    · have hemp' : (PriorityQueue.push {} (depth n) n).empty = false := by
        simpa using hemp
      obtain ⟨e, q1, hpop, hidx, hlen, hops⟩ := pop_some_of_not_empty hemp'
      rw [hpop]
      have hq1 : QInv g q1 := by
        refine ⟨hops ▸ hq0.nodup, ?_, ?_, hops ▸ hq0.subset⟩
        · rw [hlen, hops]; exact hq0.len_eq
        · unfold PriorityQueue.empty at hemp'
          simp only [ge_iff_le, decide_eq_false_iff_not, not_le] at hemp'
          omega
      have hfrontier : ∀ m ∈ g.downFrontier n, m ∈ g.opNames := by
        intro m hm
        unfold Graph.downFrontier at hm
        rcases hfind : g.getOp n with _ | op
        · rw [hfind] at hm; simp at hm
        · rw [hfind] at hm
          exact hg op (List.mem_of_find?_eq_some hfind) m hm
      refine fmieLoop_isSome g depth hg fuel _
        (pushAll_preserves_QInv _ hfrontier depth q1 hq1) ?_
      rw [pushAll_idx, hidx]
      have : (PriorityQueue.push {} (depth n) n)._idx = 0 := by
        unfold PriorityQueue.push
        split <;> rfl
      omega

/-- Witness for C10 at the diamond graph. -/
theorem pq_push_once_and_fmie_terminates_witness :
    ({ _data := [(0, "A")], _ops := ["A"], _idx := 0,
       _lazy_tag := false } : PriorityQueue).push 0 "A" =
      { _data := [(0, "A")], _ops := ["A"], _idx := 0, _lazy_tag := false } ∧
    (findMultiInputEp diamondGraph (depthOf diamondGraph diamondTopo) "A"
      4).isSome :=
  ⟨pq_push_once_and_fmie_terminates.1 _ 0 "A" (by decide),
   pq_push_once_and_fmie_terminates.2 diamondGraph _ "A" 4
     (by unfold ClosedGraph; decide) (by decide) (by decide)⟩

/-!  Formatter passes (translated from `mppq/ir/morph.py`). -/

/-- Numeric attribute lookup with a default. -/
def attrNum (attrs : List (String × V)) (key : String) (dflt : ℚ) : ℚ :=
  match attrs.lookup key with
  | some (V.num q) => q
  | _ => dflt

/-- One operation check of `format_int64_constant`: a `Constant` operation
must carry a tensor `value` attribute; an int64 tensor whose entries pass
the range check is converted to int32 — but only into a local value that is
never written back. -/
def checkInt64Constant (op : Operation) : Except String Unit :=
  if op.type = "Constant" then
    match op.attributes.lookup "value" with
    | none => .error "Constant operation has no value attribute"
    | some (V.itensor isInt64 data) =>
      if isInt64 then
        let check := data.map (fun v => decide (4294967295 > v ∧ v ≥ -4294967295))
        let _ := if check.all (fun b => b) then V.itensor false data
                 else V.itensor true data
        .ok ()
      else .ok ()
    | some _ => .error "value of Constant is assumed to be a tensor"
  else .ok ()

/-- `format_int64_constant`: walk all operations, performing the check and
the local conversion, and return the graph. -/
def formatInt64Constant (g : Graph) : Except String Graph := do
  g.operations.forM checkInt64Constant
  return g

/-- C9: `format_int64_constant` leaves the graph completely unchanged
whenever it returns: the converted tensor only ever inhabits a local, so no
attribute or other graph state is modified, regardless of whether the
int64 values fit the checked range. -/
theorem format_int64_leaves_graph_unchanged (g g2 : Graph)
    (h : formatInt64Constant g = .ok g2) : g2 = g := by
  unfold formatInt64Constant at h
  rcases hf : List.forM g.operations checkInt64Constant with e | u
  · rw [hf] at h
    simp [Bind.bind, Except.bind] at h
  · rw [hf] at h
    simp only [Bind.bind, Except.bind, pure, Except.pure, Except.ok.injEq] at h
    exact h.symm

/-- A graph holding one int64 constant whose values do not fit 32 bits. -/
def int64Graph : Graph :=
  { operations :=
      [{ name := "K", type := "Constant",
         attributes := [("value", V.itensor true [5000000000, -3])],
         outputs := ["k"] }],
    vars := [{ name := "k", source_op := some "K", dest_ops := [] }],
    inputs := [],
    outputs := ["k"] }

/-- Witness for C9: the pass returns the out-of-range int64 graph
unchanged. -/
theorem format_int64_leaves_graph_unchanged_witness :
    formatInt64Constant int64Graph = .ok int64Graph ∧ int64Graph = int64Graph :=
  ⟨by rfl, format_int64_leaves_graph_unchanged int64Graph int64Graph (by rfl)⟩

/-- Interest predicate of `format_clip`: a Clip operation carrying a `min`
or `max` attribute. -/
def clipInterested (op : Operation) : Bool :=
  op.type = "Clip" ∧
    ((op.attributes.lookup "min").isSome ∨ (op.attributes.lookup "max").isSome)

/-- The record update `format_clip` applies to the Clip operation itself:
append the two bound-variable names to the inputs and drop the `min`/`max`
attributes. -/
def clipUpdate (X : Operation) : Operation → Operation := fun o =>
  { o with
    inputs := o.inputs ++ [X.name ++ "_min", X.name ++ "_max"],
    attributes := o.attributes.filter (fun kv => kv.1 ≠ "min" ∧ kv.1 ≠ "max") }

/-- One step of `format_clip`: build min/max parameter variables (falling
back to the sentinels `-2^31` and `+2^31` for absent attributes), register
them, append them to the operation's inputs and drop the `min`/`max`
attributes. -/
def formatClipStep (g : Graph) (op : Operation) : Graph :=
  let minValue := (op.attributes.lookup "min").getD (V.num (-(2 ^ 31)))
  let maxValue := (op.attributes.lookup "max").getD (V.num (2 ^ 31))
  let minVar : Variable :=
    { name := op.name ++ "_min", value := some minValue,
      is_parameter := true, dest_ops := [op.name] }
  let maxVar : Variable :=
    { name := op.name ++ "_max", value := some maxValue,
      is_parameter := true, dest_ops := [op.name] }
  ((g.appendVariable minVar).appendVariable maxVar).updateOp op.name
    (clipUpdate op)

/-- `format_clip`: canonicalize every interested Clip operation. -/
def formatClip (g : Graph) : Graph :=
  (g.operations.filter clipInterested).foldl formatClipStep g

/-- Members of a list with nodup names are determined by their name. -/
theorem nodupNames_inj {l : List Operation}
    (h : (l.map (fun op => op.name)).Nodup) :
    ∀ a ∈ l, ∀ b ∈ l, a.name = b.name → a = b := by
  induction l with
  | nil => intro a ha; simp at ha
  | cons x l ih =>
    simp only [List.map_cons, List.nodup_cons, List.mem_map] at h
    intro a ha b hb hab
    rcases List.mem_cons.mp ha with rfl | ha' <;>
      rcases List.mem_cons.mp hb with rfl | hb'
    · rfl
    · exact absurd ⟨b, hb', hab.symm⟩ h.1
    · exact absurd ⟨a, ha', hab⟩ h.1
    · exact ih h.2 a ha' b hb' hab

/-- With nodup names, a member is exactly what name lookup finds. -/
theorem find?_name_of_mem {l : List Operation}
    (h : (l.map (fun op => op.name)).Nodup) {X : Operation} (hx : X ∈ l) :
    l.find? (fun op => op.name = X.name) = some X := by
  induction l with
  | nil => simp at hx
  | cons a l ih =>
    simp only [List.map_cons, List.nodup_cons, List.mem_map] at h
    rcases List.mem_cons.mp hx with rfl | hx'
    · simp [List.find?]
    · rw [List.find?_cons_of_neg, ih h.2 hx']
      simp only [decide_eq_true_eq]
      intro hne
      exact h.1 ⟨X, hx', hne.symm⟩

theorem getOp_updateOp_self (g : Graph) (n : String)
    (f : Operation → Operation) (hf : ∀ o, (f o).name = o.name) :
    (g.updateOp n f).getOp n = ((g.getOp n).map f) := by
  unfold Graph.updateOp Graph.getOp
  induction g.operations with
  | nil => rfl
  | cons a l ih =>
    by_cases ha : a.name = n
    · simp [List.find?_cons, ha, hf a]
    · simp only [List.map_cons, if_neg ha]
      rw [List.find?_cons_of_neg, List.find?_cons_of_neg] <;>
        simp_all

theorem getOp_updateOp_ne (g : Graph) (n m : String)
    (f : Operation → Operation) (hf : ∀ o, (f o).name = o.name)
    (hne : m ≠ n) : (g.updateOp n f).getOp m = g.getOp m := by
  unfold Graph.updateOp Graph.getOp
  induction g.operations with
  | nil => rfl
  | cons a l ih =>
    simp only [List.map_cons]
    by_cases han : a.name = n
    · have ham : ¬ a.name = m := by
        rw [han]
        exact fun h => hne h.symm
      rw [if_pos han, List.find?_cons_of_neg, List.find?_cons_of_neg]
      · exact ih
      · simpa using ham
      · simp only [decide_eq_true_eq, hf a]
        exact ham
    · rw [if_neg han]
      by_cases ham : a.name = m
      · simp [List.find?_cons, ham]
      · rw [List.find?_cons_of_neg, List.find?_cons_of_neg]
        · exact ih
        · simpa using ham
        · simpa using ham

theorem getVar_appendVariable_of_found (g : Graph) (v : Variable)
    {n : String} {w : Variable} (h : g.getVar n = some w) :
    (g.appendVariable v).getVar n = some w := by
  unfold Graph.getVar Graph.appendVariable at *
  simp only [List.find?_append, h]
  rfl

theorem getVar_appendVariable_of_none (g : Graph) (v : Variable)
    {n : String} (h : g.getVar n = none) :
    (g.appendVariable v).getVar n =
      if v.name = n then some v else none := by
  unfold Graph.getVar Graph.appendVariable at *
  simp only [List.find?_append, h]
  by_cases hv : v.name = n <;> simp [List.find?, hv]

theorem getVar_updateOp (g : Graph) (n : String) (f : Operation → Operation)
    (m : String) : (g.updateOp n f).getVar m = g.getVar m := rfl

theorem getOp_appendVariable (g : Graph) (v : Variable) (m : String) :
    (g.appendVariable v).getOp m = g.getOp m := rfl

/-- The min-bound parameter variable that `format_clip` creates. -/
def clipMinRec (X : Operation) : Variable :=
  { name := X.name ++ "_min",
    value := some ((X.attributes.lookup "min").getD (V.num (-(2 ^ 31)))),
    is_parameter := true, dest_ops := [X.name] }

/-- The max-bound parameter variable that `format_clip` creates. -/
def clipMaxRec (X : Operation) : Variable :=
  { name := X.name ++ "_max",
    value := some ((X.attributes.lookup "max").getD (V.num (2 ^ 31))),
    is_parameter := true, dest_ops := [X.name] }

/-- The canonicalized Clip operation record. -/
def clipOpRec (X : Operation) : Operation := clipUpdate X X

/-- Post-state of `format_clip` for one canonicalized operation. -/
def ClipPost (g : Graph) (X : Operation) : Prop :=
  g.getVar (X.name ++ "_min") = some (clipMinRec X) ∧
  g.getVar (X.name ++ "_max") = some (clipMaxRec X) ∧
  g.getOp X.name = some (clipOpRec X)

/-- Pre-state: the operation still carries its original record and the
bound-variable names are unused. -/
def ClipPre (g : Graph) (X : Operation) : Prop :=
  g.getOp X.name = some X ∧ g.getVar (X.name ++ "_min") = none ∧
  g.getVar (X.name ++ "_max") = none

theorem getVar_append_none_of_ne (g : Graph) (v : Variable) {n : String}
    (h : g.getVar n = none) (hv : v.name ≠ n) :
    (g.appendVariable v).getVar n = none := by
  rw [getVar_appendVariable_of_none g v h, if_neg hv]

theorem formatClipStep_post {g : Graph} {X : Operation}
    (hpre : ClipPre g X) (hmm : X.name ++ "_min" ≠ X.name ++ "_max") :
    ClipPost (formatClipStep g X) X := by
  obtain ⟨hOp, hmin, hmax⟩ := hpre
  unfold formatClipStep ClipPost
  dsimp only
  refine ⟨?_, ?_, ?_⟩
  · rw [getVar_updateOp]
    exact getVar_appendVariable_of_found _ _
      (by rw [getVar_appendVariable_of_none g _ hmin, if_pos rfl]; rfl)
  · rw [getVar_updateOp]
    rw [getVar_appendVariable_of_none _ _
      (getVar_append_none_of_ne g _ hmax hmm), if_pos rfl]
    rfl
  · rw [getOp_updateOp_self _ X.name (clipUpdate X) (fun o => rfl)]
    rw [getOp_appendVariable, getOp_appendVariable, hOp]
    rfl

theorem formatClipStep_preserves {g : Graph} {X Y : Operation}
    (hname : Y.name ≠ X.name)
    (hm1 : Y.name ++ "_min" ≠ X.name ++ "_min")
    (hm2 : Y.name ++ "_max" ≠ X.name ++ "_max")
    (hpost : ClipPost g X) : ClipPost (formatClipStep g Y) X := by
  obtain ⟨h1, h2, h3⟩ := hpost
  unfold formatClipStep ClipPost
  dsimp only
  refine ⟨?_, ?_, ?_⟩
  · rw [getVar_updateOp]
    exact getVar_appendVariable_of_found _ _
      (getVar_appendVariable_of_found _ _ h1)
  · rw [getVar_updateOp]
    exact getVar_appendVariable_of_found _ _
      (getVar_appendVariable_of_found _ _ h2)
  · rw [getOp_updateOp_ne _ Y.name X.name (clipUpdate Y) (fun o => rfl)
      (fun h => hname h.symm)]
    exact h3

theorem formatClipStep_preserves_pre {g : Graph} {X Y : Operation}
    (hname : Y.name ≠ X.name)
    (hm1 : Y.name ++ "_min" ≠ X.name ++ "_min")
    (hm2 : Y.name ++ "_max" ≠ X.name ++ "_max")
    (hm3 : Y.name ++ "_min" ≠ X.name ++ "_max")
    (hm4 : Y.name ++ "_max" ≠ X.name ++ "_min")
    (hpre : ClipPre g X) : ClipPre (formatClipStep g Y) X := by
  obtain ⟨h1, h2, h3⟩ := hpre
  unfold formatClipStep ClipPre
  dsimp only
  refine ⟨?_, ?_, ?_⟩
  · rw [getOp_updateOp_ne _ Y.name X.name (clipUpdate Y) (fun o => rfl)
      (fun h => hname h.symm)]
    exact h1
  · rw [getVar_updateOp]
    exact getVar_append_none_of_ne _ _
      (getVar_append_none_of_ne _ _ h2 hm1) hm4
  · rw [getVar_updateOp]
    exact getVar_append_none_of_ne _ _
      (getVar_append_none_of_ne _ _ h3 hm3) hm2

/-- Name-distinctness conditions of `Y` against the target `X`. -/
def ClipDistinct (Y X : Operation) : Prop :=
  Y.name ≠ X.name ∧ Y.name ++ "_min" ≠ X.name ++ "_min" ∧
  Y.name ++ "_max" ≠ X.name ++ "_max" ∧ Y.name ++ "_min" ≠ X.name ++ "_max" ∧
  Y.name ++ "_max" ≠ X.name ++ "_min"

theorem foldl_clip_preserves {X : Operation} :
    ∀ (L : List Operation) (g : Graph), (∀ Y ∈ L, ClipDistinct Y X) →
      ClipPost g X → ClipPost (L.foldl formatClipStep g) X := by
  intro L
  induction L with
  | nil => intro g _ h; exact h
  | cons Y L ih =>
    intro g hd h
    have hy := hd Y (List.mem_cons_self Y L)
    exact ih _ (fun Z hz => hd Z (List.mem_cons_of_mem Y hz))
      (formatClipStep_preserves hy.1 hy.2.1 hy.2.2.1 h)

theorem foldl_clip_establishes {X : Operation}
    (hmm : X.name ++ "_min" ≠ X.name ++ "_max") :
    ∀ (L : List Operation) (g : Graph), X ∈ L →
      (L.map (fun op => op.name)).Nodup →
      (∀ Y ∈ L, Y.name ≠ X.name → ClipDistinct Y X) →
      ClipPre g X → ClipPost (L.foldl formatClipStep g) X := by
  intro L
  induction L with
  | nil => intro g hx; simp at hx
  | cons Y L ih =>
    intro g hx hnd hd hpre
    simp only [List.map_cons, List.nodup_cons, List.mem_map] at hnd
    rcases List.mem_cons.mp hx with rfl | hx'
    · refine foldl_clip_preserves L _ ?_ (formatClipStep_post hpre hmm)
      intro Z hz
      refine hd Z (List.mem_cons_of_mem _ hz) ?_
      intro hzn
      exact hnd.1 ⟨Z, hz, hzn⟩
    · have hyname : Y.name ≠ X.name := by
        intro h
        exact hnd.1 ⟨X, hx', h.symm⟩
      have hy := hd Y (List.mem_cons_self Y L) hyname
      exact ih _ hx' hnd.2 (fun Z hz hzn => hd Z (List.mem_cons_of_mem Y hz) hzn)
        (formatClipStep_preserves_pre hy.1 hy.2.1 hy.2.2.1 hy.2.2.2.1
          hy.2.2.2.2 hpre)

theorem lookup_filter_none (l : List (String × V)) (k : String)
    (p : String × V → Bool) (hp : ∀ kv, p kv = true → kv.1 ≠ k) :
    (l.filter p).lookup k = none := by
  induction l with
  | nil => rfl
  | cons a l ih =>
    rcases a with ⟨k1, v1⟩
    by_cases ha : p (k1, v1)
    · rw [List.filter_cons_of_pos ha]
      have hne : (k == k1) = false := by
        have h1 := hp (k1, v1) ha
        simp only [ne_eq] at h1
        simp only [beq_eq_false_iff_ne, ne_eq]
        exact fun h => h1 (h ▸ rfl)
      simp only [List.lookup, hne]
      exact ih
    · rw [List.filter_cons_of_neg (by simpa using ha)]
      exact ih

/-- C7: for every Clip operation carrying a `min` or `max` attribute,
`format_clip` appends two new parameter input variables holding the min and
max bounds (the sentinels `-2^31` and `+2^31` standing in for absent
attributes, via the defaults inside `clipMinRec`/`clipMaxRec`), and removes
the `min`/`max` attributes from the operation. -/
theorem format_clip_canonicalizes (g : Graph)
    (h1 : (g.operations.map (fun op => op.name)).Nodup)
    (h2 : ∀ v ∈ g.vars, ∀ op ∈ g.operations,
      v.name ≠ op.name ++ "_min" ∧ v.name ≠ op.name ++ "_max")
    (h3 : ∀ a ∈ g.operations, ∀ b ∈ g.operations,
      (a.name ++ "_min" = b.name ++ "_min" → a.name = b.name) ∧
      (a.name ++ "_max" = b.name ++ "_max" → a.name = b.name) ∧
      a.name ++ "_min" ≠ b.name ++ "_max") :
    ∀ X ∈ g.operations, clipInterested X = true →
      ClipPost (formatClip g) X ∧
      (clipOpRec X).attributes.lookup "min" = none ∧
      (clipOpRec X).attributes.lookup "max" = none := by
  intro X hX hint
  have hmm : X.name ++ "_min" ≠ X.name ++ "_max" := (h3 X hX X hX).2.2
  have hXL : X ∈ g.operations.filter clipInterested :=
    List.mem_filter.mpr ⟨hX, hint⟩
  have hndL : ((g.operations.filter clipInterested).map
      (fun op => op.name)).Nodup :=
    h1.sublist ((List.filter_sublist _).map _)
  have hdist : ∀ Y ∈ g.operations.filter clipInterested, Y.name ≠ X.name →
      ClipDistinct Y X := by
    intro Y hYL hYn
    have hY := List.mem_of_mem_filter hYL
    refine ⟨hYn, ?_, ?_, (h3 Y hY X hX).2.2, ?_⟩
    · intro h
      exact hYn ((h3 Y hY X hX).1 h)
    · intro h
      exact hYn ((h3 Y hY X hX).2.1 h)
    · intro h
      exact (h3 X hX Y hY).2.2 h.symm
  have hpre : ClipPre g X := by
    refine ⟨find?_name_of_mem h1 hX, ?_, ?_⟩
    · refine List.find?_eq_none.mpr ?_
      intro v hv
      simpa using (h2 v hv X hX).1
    · refine List.find?_eq_none.mpr ?_
      intro v hv
      simpa using (h2 v hv X hX).2
  refine ⟨foldl_clip_establishes hmm _ g hXL hndL hdist hpre, ?_, ?_⟩
  · refine lookup_filter_none _ _ _ ?_
    intro kv hkv
    simpa using (by simpa using hkv : kv.1 ≠ "min" ∧ kv.1 ≠ "max").1
  · refine lookup_filter_none _ _ _ ?_
    intro kv hkv
    simpa using (by simpa using hkv : kv.1 ≠ "min" ∧ kv.1 ≠ "max").2

/-- A one-Clip graph whose Clip carries only a `min` attribute. -/
def clipGraph : Graph :=
  { operations :=
      [{ name := "Cl", type := "Clip", attributes := [("min", V.num 0)],
         inputs := ["x"], outputs := ["y"] }],
    vars := [{ name := "x", dest_ops := ["Cl"] },
             { name := "y", source_op := some "Cl" }],
    inputs := ["x"], outputs := ["y"] }

/-- The Clip operation of `clipGraph`. -/
def clipOpX : Operation :=
  { name := "Cl", type := "Clip", attributes := [("min", V.num 0)],
    inputs := ["x"], outputs := ["y"] }

/-- Witness for C7 on the one-Clip graph: the absent `max` bound receives
the `+2^31` sentinel. -/
theorem format_clip_canonicalizes_witness :
    ClipPost (formatClip clipGraph) clipOpX ∧
    (clipOpRec clipOpX).attributes.lookup "min" = none ∧
    (clipOpRec clipOpX).attributes.lookup "max" = none :=
  format_clip_canonicalizes clipGraph (by decide) (by decide) (by decide)
    clipOpX (by decide) (by decide)

/-!  Replacer (translated from `mppq/ir/morph.py`, `GraphReplacer`). -/

/-- Re-point a consumer entry: the first occurrence of the replaced
operation in a destination list becomes the replacement. -/
def repointDest (opName yname : String) : Variable → Variable := fun v =>
  { v with dest_ops := v.dest_ops.replace opName yname }

/-- Re-point a producer reference to the replacement. -/
def repointSource (yname : String) : Variable → Variable := fun v =>
  { v with source_op := some yname }

/-- `GraphReplacer.replace_op`: raise a lookup error for a missing name;
otherwise transplant the replaced operation's ordered input and output
lists onto the replacement, re-point every affected back-reference
(consumer entries of the inputs, producer of the outputs), and store the
replacement in the replaced operation's slot.  The source's transplant of
the stored parameter list is subsumed: parameters are the marked
subsequence of the transplanted inputs. -/
def replaceOp (g : Graph) (opName : String) (replaceTo : Operation) :
    Except String Graph :=
  match g.getOp opName with
  | none => .error "KeyError"
  | some operation =>
    let r := { replaceTo with
               inputs := operation.inputs, outputs := operation.outputs }
    let g1 := operation.inputs.foldl (fun g vn =>
      g.updateVar vn (repointDest opName r.name)) g
    let g2 := operation.outputs.foldl (fun g vn =>
      g.updateVar vn (repointSource r.name)) g1
    .ok (g2.updateOp opName (fun _ => r))

theorem find?_map_update {l : List Variable} {n : String} {v : Variable}
    (h : l.find? (fun w => w.name = n) = some v) (f : Variable → Variable)
    (hf : ∀ w, (f w).name = w.name) :
    (l.map (fun w => if w.name = n then f w else w)).find?
      (fun w => w.name = n) = some (f v) := by
  induction l with
  | nil => simp at h
  | cons a l ih =>
    by_cases ha : a.name = n
    · rw [List.find?_cons_of_pos _ (by simpa using ha)] at h
      cases h
      simp [List.find?_cons, ha, hf]
    · rw [List.find?_cons_of_neg _ (by simpa using ha)] at h
      rw [List.map_cons, List.find?_cons_of_neg]
      · exact ih h
      · simp [if_neg ha, ha]

theorem getVar_updateVar_self {g : Graph} {n : String} {v : Variable}
    (h : g.getVar n = some v) (f : Variable → Variable)
    (hf : ∀ w, (f w).name = w.name) :
    (g.updateVar n f).getVar n = some (f v) := by
  unfold Graph.updateVar Graph.getVar at *
  dsimp only
  exact find?_map_update h f hf

theorem getVar_updateVar_ne {g : Graph} {n m : String} (f : Variable → Variable)
    (hf : ∀ w, (f w).name = w.name) (hne : m ≠ n) :
    (g.updateVar n f).getVar m = g.getVar m := by
  unfold Graph.updateVar Graph.getVar
  induction g.vars with
  | nil => rfl
  | cons a l ih =>
    simp only [List.map_cons]
    by_cases han : a.name = n
    · have ham : ¬ a.name = m := by
        rw [han]
        exact fun h => hne h.symm
      rw [if_pos han, List.find?_cons_of_neg, List.find?_cons_of_neg]
      · exact ih
      · simpa using ham
      · simp only [decide_eq_true_eq, hf a]
        exact ham
    · rw [if_neg han]
      by_cases ham : a.name = m
      · simp [List.find?_cons, ham]
      · rw [List.find?_cons_of_neg, List.find?_cons_of_neg]
        · exact ih
        · simpa using ham
        · simpa using ham

theorem getVar_updateVar_none {g : Graph} {n m : String} (f : Variable → Variable)
    (hf : ∀ w, (f w).name = w.name) (h : g.getVar m = none) :
    (g.updateVar n f).getVar m = none := by
  unfold Graph.updateVar Graph.getVar at *
  rw [List.find?_eq_none] at h ⊢
  intro w hw
  rcases List.mem_map.mp hw with ⟨a, ha, rfl⟩
  by_cases han : a.name = n
  · simpa [if_pos han, hf a] using h a ha
  · simpa [if_neg han] using h a ha

theorem foldl_updateVar_get_not_mem (f : Variable → Variable)
    (hf : ∀ w, (f w).name = w.name) :
    ∀ (L : List String) (g : Graph) (m : String), m ∉ L →
      ((L.foldl (fun g vn => g.updateVar vn f) g).getVar m = g.getVar m) := by
  intro L
  induction L with
  | nil => intro g m _; rfl
  | cons a L ih =>
    intro g m hm
    rw [List.foldl_cons, ih _ m (fun h => hm (List.mem_cons_of_mem a h))]
    exact getVar_updateVar_ne f hf (fun h => hm (h ▸ List.mem_cons_self a L))

theorem foldl_updateVar_get_mem (f : Variable → Variable)
    (hf : ∀ w, (f w).name = w.name) :
    ∀ (L : List String) (g : Graph) (v : Variable), v.name ∈ L → L.Nodup →
      g.getVar v.name = some v →
      ((L.foldl (fun g vn => g.updateVar vn f) g).getVar v.name = some (f v)) := by
  intro L
  induction L with
  | nil =>
    intro g v hv _ _
    simp at hv
  | cons a L ih =>
    intro g v hv hnd hg
    rw [List.foldl_cons]
    rcases List.mem_cons.mp hv with h | h
    · have hnotL : v.name ∉ L := by
        rw [h]
        exact (List.nodup_cons.mp hnd).1
      rw [foldl_updateVar_get_not_mem f hf L _ v.name hnotL, ← h]
      exact getVar_updateVar_self hg f hf
    · have hne : v.name ≠ a := by
        intro hna
        rw [hna] at h
        exact (List.nodup_cons.mp hnd).1 h
      refine ih _ v h (List.nodup_cons.mp hnd).2 ?_
      rw [getVar_updateVar_ne f hf hne]
      exact hg

theorem foldl_updateVar_get_none (f : Variable → Variable)
    (hf : ∀ w, (f w).name = w.name) :
    ∀ (L : List String) (g : Graph) (m : String), g.getVar m = none →
      ((L.foldl (fun g vn => g.updateVar vn f) g).getVar m = none) := by
  intro L
  induction L with
  | nil => intro g m h; exact h
  | cons a L ih =>
    intro g m h
    rw [List.foldl_cons]
    exact ih _ m (getVar_updateVar_none f hf h)

theorem foldl_updateVar_operations (f : Variable → Variable) :
    ∀ (L : List String) (g : Graph),
      (L.foldl (fun g vn => g.updateVar vn f) g).operations = g.operations := by
  intro L
  induction L with
  | nil => intro g; rfl
  | cons a L ih =>
    intro g
    rw [List.foldl_cons, ih]
    rfl

/-- The replacement record after transplanting the replaced operation's
ordered input and output lists. -/
def transplant (y X : Operation) : Operation :=
  { y with inputs := X.inputs, outputs := X.outputs }

/-- C5: `replace_op` on a present operation name leaves the replacement
wired to exactly the replaced operation's former ordered inputs, outputs
and parameters (the parameter markings of the transplanted inputs are
untouched), re-points every consumer entry and producer back-reference to
the replacement, and evicts the replaced record from the operation
mapping; a missing name raises a lookup error (and, the embedding being
pure, no graph is produced). -/
theorem replace_op_rewires (g : Graph) (opName : String) (y : Operation) :
    (g.getOp opName = none → replaceOp g opName y = .error "KeyError") ∧
    (∀ X, g.getOp opName = some X →
      (g.operations.map (fun op => op.name)).Nodup →
      X.inputs.Nodup → X.outputs.Nodup →
      (∀ vn ∈ X.outputs, vn ∉ X.inputs) →
      ∃ g2, replaceOp g opName y = .ok g2 ∧
        g2.operations = g.operations.map
          (fun o => if o.name = opName then transplant y X else o) ∧
        (X = transplant y X ∨ X ∉ g2.operations) ∧
        (∀ vn ∈ X.inputs, ∀ v, g.getVar vn = some v →
          g2.getVar vn =
            some { v with dest_ops := v.dest_ops.replace opName y.name }) ∧
        (∀ vn ∈ X.outputs, ∀ v, g.getVar vn = some v →
          g2.getVar vn = some { v with source_op := some y.name }) ∧
        (∀ n ∈ X.inputs, ((replaceOp g opName y).toOption.bind
            (fun g2 => g2.getVar n)).map (fun v => v.is_parameter) =
          (g.getVar n).map (fun v => v.is_parameter))) := by
  constructor
  · intro h
    unfold replaceOp
    rw [h]
  · intro X hX hnodup hinN houtN hdisj
    have hXname : X.name = opName := by
      have := List.find?_some hX
      simpa using this
    refine ⟨(X.outputs.foldl
        (fun g vn => g.updateVar vn (repointSource (transplant y X).name))
        (X.inputs.foldl (fun g vn => g.updateVar vn
          (repointDest opName (transplant y X).name)) g)).updateOp opName
        (fun _ => transplant y X), ?_, ?_, ?_, ?_, ?_, ?_⟩
    · unfold replaceOp
      rw [hX]
      rfl
    · unfold Graph.updateOp
      dsimp only
      rw [foldl_updateVar_operations, foldl_updateVar_operations]
    · by_cases hXr : X = transplant y X
      · exact Or.inl hXr
      · refine Or.inr ?_
        intro hmem
        have hops : (((X.outputs.foldl
            (fun g vn => g.updateVar vn (repointSource (transplant y X).name))
            (X.inputs.foldl
              (fun g vn => g.updateVar vn (repointDest opName
                (transplant y X).name)) g)).updateOp opName
            (fun _ => transplant y X))).operations =
            g.operations.map
              (fun o => if o.name = opName then transplant y X else o) := by
          unfold Graph.updateOp
          rw [foldl_updateVar_operations, foldl_updateVar_operations]
        rw [hops] at hmem
        rcases List.mem_map.mp hmem with ⟨o, ho, heq⟩
        by_cases hon : o.name = opName
        · rw [if_pos hon] at heq
          exact hXr heq.symm
        · rw [if_neg hon] at heq
          rw [heq] at hon
          exact hon hXname
    · intro vn hvn v hv
      have hvname : v.name = vn := by
        have := List.find?_some hv
        simpa using this
      have hnotout : vn ∉ X.outputs := fun h => hdisj vn h hvn
      rw [getVar_updateOp]
      rw [foldl_updateVar_get_not_mem (repointSource (transplant y X).name)
        (fun w => rfl) X.outputs _ vn hnotout]
      rw [← hvname] at hvn hv ⊢
      exact foldl_updateVar_get_mem (repointDest opName (transplant y X).name)
        (fun w => rfl) X.inputs g v hvn hinN hv
    · intro vn hvn v hv
      have hvname : v.name = vn := by
        have := List.find?_some hv
        simpa using this
      have hnotin : vn ∉ X.inputs := hdisj vn hvn
      rw [getVar_updateOp]
      rw [← hvname] at hvn hnotin hv ⊢
      refine foldl_updateVar_get_mem (repointSource (transplant y X).name)
        (fun w => rfl) X.outputs _ v hvn houtN ?_
      rw [foldl_updateVar_get_not_mem (repointDest opName (transplant y X).name)
        (fun w => rfl) X.inputs g v.name hnotin]
      exact hv
    · intro n hn
      have hrw : replaceOp g opName y =
          .ok ((X.outputs.foldl
            (fun g vn => g.updateVar vn (repointSource (transplant y X).name))
            (X.inputs.foldl (fun g vn => g.updateVar vn
              (repointDest opName (transplant y X).name)) g)).updateOp opName
            (fun _ => transplant y X)) := by
        unfold replaceOp
        rw [hX]
        rfl
      rw [hrw]
      simp only [Except.toOption, Option.some_bind]
      rcases hgv : g.getVar n with _ | v
      · rw [getVar_updateOp]
        have h1 := foldl_updateVar_get_none
          (repointDest opName (transplant y X).name) (fun w => rfl)
          X.inputs g n hgv
        rw [foldl_updateVar_get_none (repointSource (transplant y X).name)
          (fun w => rfl) X.outputs _ n h1]
      · have hvname : v.name = n := by
          have := List.find?_some hgv
          simpa using this
        have hnotout : n ∉ X.outputs := fun h => hdisj n h hn
        rw [getVar_updateOp]
        rw [foldl_updateVar_get_not_mem (repointSource (transplant y X).name)
          (fun w => rfl) X.outputs _ n hnotout]
        rw [← hvname] at hn hgv ⊢
        rw [foldl_updateVar_get_mem (repointDest opName (transplant y X).name)
          (fun w => rfl) X.inputs g v hn hinN hgv]
        rfl

/-- A small graph for exercising `replace_op`. -/
def repGraph : Graph :=
  { operations :=
      [{ name := "X", type := "Relu", inputs := ["a", "w"], outputs := ["b"] }],
    vars :=
      [{ name := "a", dest_ops := ["X"] },
       { name := "w", is_parameter := true, value := some (V.vec [1]),
         dest_ops := ["X"] },
       { name := "b", source_op := some "X", dest_ops := [] }],
    inputs := ["a"], outputs := ["b"] }

/-- The replaced operation of `repGraph`. -/
def repX : Operation :=
  { name := "X", type := "Relu", inputs := ["a", "w"], outputs := ["b"] }

/-- The replacement operation. -/
def repY : Operation := { name := "X", type := "Gelu" }

/-- Witness for C5: the missing name raises the lookup error, and the
present name is transplanted and rewired. -/
theorem replace_op_rewires_witness :
    replaceOp repGraph "Z" repY = .error "KeyError" ∧
    (∃ g2, replaceOp repGraph "X" repY = .ok g2 ∧
      g2.operations = repGraph.operations.map
        (fun o => if o.name = "X" then transplant repY repX else o) ∧
      (repX = transplant repY repX ∨ repX ∉ g2.operations) ∧
      (∀ vn ∈ repX.inputs, ∀ v, repGraph.getVar vn = some v →
        g2.getVar vn =
          some { v with dest_ops := v.dest_ops.replace "X" repY.name }) ∧
      (∀ vn ∈ repX.outputs, ∀ v, repGraph.getVar vn = some v →
        g2.getVar vn = some { v with source_op := some repY.name }) ∧
      (∀ n ∈ repX.inputs, ((replaceOp repGraph "X" repY).toOption.bind
          (fun g2 => g2.getVar n)).map (fun v => v.is_parameter) =
        (repGraph.getVar n).map (fun v => v.is_parameter))) :=
  ⟨(replace_op_rewires repGraph "Z" repY).1 (by decide),
   (replace_op_rewires repGraph "X" repY).2 repX (by decide) (by decide)
     (by decide) (by decide) (by decide)⟩

/-!  Merger: batch-normalization folding (translated from
`mppq/ir/morph.py`, `GraphMerger.fuse_bn`).  Tensor values are rational
lists; `torch.sqrt` is an abstract elementwise function passed in. -/

/-- Truncating an integral rational to a natural number (used for integer
attributes such as `group`). -/
def ratToNat (q : ℚ) : Nat := q.num.toNat

/-- Elementwise `alpha / sqrt(var + epsilon)`, the `scale` computed by
`fuse_bn`. -/
def bnScale (sqrt : ℚ → ℚ) (alpha varr : List ℚ) (eps : ℚ) : List ℚ :=
  List.zipWith (fun a v => a / sqrt (v + eps)) alpha varr

/-- Elementwise `alpha * (b - mean) / sqrt(var + eps) + beta`, the fused
bias computed by `fuse_bn` (arguments: alpha, bias, mean, variance,
beta). -/
def fuseBnBias (sqrt : ℚ → ℚ) (eps : ℚ) :
    List ℚ → List ℚ → List ℚ → List ℚ → List ℚ → List ℚ
  | a :: as, b :: bs, m :: ms, v :: vs, c :: cs =>
    (a * (b - m) / sqrt (v + eps) + c) :: fuseBnBias sqrt eps as bs ms vs cs
  | _, _, _, _, _ => []

/-- `w * scale.reshape([-1, 1, ...])` on a nested-list tensor whose outer
dimension is the scaled channel: every row is multiplied by its channel
scale (`Conv`, and `Gemm` with `transB`). -/
def scaleRows (w : List (List ℚ)) (scale : List ℚ) : List (List ℚ) :=
  List.zipWith (fun row s => row.map (fun x => x * s)) w scale

/-- `w * scale.reshape([1, -1])` on a matrix whose columns are the scaled
channels (`Gemm` without `transB`). -/
def scaleCols (w : List (List ℚ)) (scale : List ℚ) : List (List ℚ) :=
  w.map (fun row => List.zipWith (fun x s => x * s) row scale)

/-- Split a list into consecutive chunks of size `k` (the row-major
semantics of prepending a group axis by `reshape`). -/
def chunk (k : Nat) : List α → List (List α)
  | [] => []
  | a :: l =>
    if hk : k = 0 then []
    else (a :: l).take k :: chunk k ((a :: l).drop k)
termination_by l => l.length
decreasing_by
  simp only [List.length_drop, List.length_cons]
  omega

/-- The grouped `ConvTranspose` weight scaling of `fuse_bn`:
`w.reshape([g, -1] + shape[1:]) * scale.reshape([g, 1, -1, 1...])`,
flattened back.  `w` is `[in_c][out_c/g][spatial]`. -/
def fuseBnCTWeight (group : Nat) (w : List (List (List ℚ)))
    (scale : List ℚ) : List (List (List ℚ)) :=
  (List.zipWith
    (fun wg sg => wg.map (fun slice =>
      List.zipWith (fun spat s => spat.map (fun x => x * s)) slice sg))
    (chunk (w.length / group) w) (chunk (scale.length / group) scale)).flatten

/-- The zero bias substituted when the computing operation has a single
parameter: `ConvTranspose` gets `zeros(w.shape[1] * group)`, `Gemm`
without `transB` gets `zeros(w.shape[1])`, everything else
`zeros(w.shape[0])`. -/
def zerosFor (ctype : String) (cattrs : List (String × V)) (wv : V) :
    Option (List ℚ) :=
  match wv with
  | V.cube w =>
    if ctype = "ConvTranspose" then
      some (List.replicate ((w.headD []).length *
        ratToNat (attrNum cattrs "group" 1)) 0)
    else none
  | V.mat w =>
    if ctype = "ConvTranspose" then none
    else if ctype = "Gemm" ∧ attrNum cattrs "transB" 0 = 0 then
      some (List.replicate (w.headD []).length 0)
    else some (List.replicate w.length 0)
  | _ => none

/-- The per-pair closed-form folding of `fuse_bn`: given the computing
operation's type, attributes, weight value and (possibly substituted) bias,
and the normalization parameters `alpha, beta, mean, var` with `epsilon`,
produce the fused weight and bias.  `none` corresponds to the source's
type errors on unexpected operator kinds. -/
def fuseBnFold (sqrt : ℚ → ℚ) (ctype : String) (cattrs : List (String × V))
    (wv : V) (b : List ℚ) (alpha beta mean varr : List ℚ) (eps : ℚ) :
    Option (V × List ℚ) :=
  match ctype, wv with
  | "Conv", V.mat w =>
    some (V.mat (scaleRows w (bnScale sqrt alpha varr eps)),
          fuseBnBias sqrt eps alpha b mean varr beta)
  | "Gemm", V.mat w =>
    if attrNum cattrs "transB" 0 ≠ 0 then
      some (V.mat (scaleRows w (bnScale sqrt alpha varr eps)),
            fuseBnBias sqrt eps alpha b mean varr beta)
    else
      some (V.mat (scaleCols w (bnScale sqrt alpha varr eps)),
            fuseBnBias sqrt eps alpha b mean varr beta)
  | "ConvTranspose", V.cube w =>
    some (V.cube (fuseBnCTWeight (ratToNat (attrNum cattrs "group" 1)) w
            (bnScale sqrt alpha varr eps)),
          fuseBnBias sqrt eps alpha b mean varr beta)
  | _, _ => none

/-- Rank-1 value of a variable, when it is one. -/
def getVecValue (v : Variable) : Option (List ℚ) :=
  match v.value with
  | some (V.vec l) => some l
  | _ => none

/-- A default variable record for positional parameter access. -/
def dfltVar : Variable := { name := "" }

/-- One candidate of `fuse_bn`: skip (with a diagnostic) when the computing
operation has more than one downstream consumer or the normalization
operation more than one upstream producer; otherwise fold the parameters
and rewire the graph around a merged operation reusing the computing
operation's name. -/
def fuseBnStep (sqrt : ℚ → ℚ) (g : Graph) (path : List String) :
    Except String Graph :=
  match path with
  | [cn, bn] =>
    match g.getOp cn, g.getOp bn with
    | some cop, some bop =>
      if (g.downstreamOps cop).length ≠ 1 ∨ (g.upstreamOps bop).length ≠ 1 then
        .ok g
      else
        let bparams := g.opParameters bop
        if bparams.length = 4 then
          match getVecValue (bparams.getD 0 dfltVar),
              getVecValue (bparams.getD 1 dfltVar),
              getVecValue (bparams.getD 2 dfltVar),
              getVecValue (bparams.getD 3 dfltVar) with
          | some alpha, some beta, some mean, some varr =>
            let eps := attrNum bop.attributes "epsilon" (1 / 100000)
            let cparams := g.opParameters cop
            let wb : Option (V × List ℚ) :=
              if cparams.length = 1 then
                match (cparams.getD 0 dfltVar).value with
                | some wv => (zerosFor cop.type cop.attributes wv).map
                    (fun b => (wv, b))
                | none => none
              else
                match (cparams.getD 0 dfltVar).value,
                    getVecValue (cparams.getD 1 dfltVar) with
                | some wv, some b => some (wv, b)
                | _, _ => none
            match wb with
            | none => .error "invalid computing-op parameters"
            | some (wv, b) =>
              match fuseBnFold sqrt cop.type cop.attributes wv b
                  alpha beta mean varr eps with
              | none => .error "TypeError: unexpected op type"
              | some (wq, bq) =>
                match cop.inputs.head?, bop.outputs.head? with
                | some inName, some outName =>
                  let g := g.updateVar inName (fun v =>
                    { v with dest_ops := v.dest_ops.erase cn ++ [cn] })
                  let g := g.updateVar outName (fun v =>
                    { v with source_op := some cn })
                  let g := g.updateOp cn (fun o =>
                    { o with inputs := o.inputs.drop 1 })
                  let g := g.updateOp bn (fun o => { o with outputs := [] })
                  let g := g.removeOperation cn
                  let g := g.removeOperation bn
                  let g := g.appendOperation
                    { name := cn, type := cop.type,
                      attributes := cop.attributes,
                      inputs := [inName, cn ++ "_weight", cn ++ "_bias"],
                      outputs := [outName] }
                  let g := g.appendVariable
                    { name := cn ++ "_weight", value := some wq,
                      is_parameter := true, dest_ops := [cn] }
                  let g := g.appendVariable
                    { name := cn ++ "_bias", value := some (V.vec bq),
                      is_parameter := true, dest_ops := [cn] }
                  .ok g
                | _, _ => .error "IndexError"
          | _, _, _, _ => .error "BatchNorm parameter values must be tensors"
        else .error "BatchNorm should have 4 parameters"
    | _, _ => .error "path references a removed operation"
  | _ => .error "Oops seems we got something unexpected."

/-- `fuse_bn`: match every (computing op, BatchNormalization) adjacent pair
through the search engine and process the candidates in order. -/
def fuseBn (sqrt : ℚ → ℚ) (g : Graph) : Except String Graph :=
  (g.pathMatching
    (fun op => op.type = "Conv" ∨ op.type = "Gemm" ∨ op.type = "ConvTranspose")
    (fun _ _ => false)
    (fun op => op.type = "BatchNormalization")).foldlM (fuseBnStep sqrt) g

/-- C8: a matched (computing op, BatchNormalization) candidate whose
computing op has more than one downstream consumer or whose normalization
op has more than one upstream producer is skipped: the step leaves the
graph — the pair's operations and variables included — unmodified, and the
pass continues over the remaining candidates from that same graph (the
emitted diagnostic is logging, outside the embedding). -/
theorem fuse_bn_skips_near_miss (sqrt : ℚ → ℚ) (g : Graph) (c bn : String)
    (cop bop : Operation) (rest : List (List String))
    (hc : g.getOp c = some cop) (hb : g.getOp bn = some bop)
    (hmiss : ¬((g.downstreamOps cop).length = 1 ∧
      (g.upstreamOps bop).length = 1)) :
    fuseBnStep sqrt g [c, bn] = .ok g ∧
    List.foldlM (fuseBnStep sqrt) g ([c, bn] :: rest) =
      List.foldlM (fuseBnStep sqrt) g rest := by
  have hstep : fuseBnStep sqrt g [c, bn] = .ok g := by
    unfold fuseBnStep
    dsimp only
    rw [hc, hb]
    dsimp only
    rw [if_pos]
    rcases not_and_or.mp hmiss with h | h
    · exact Or.inl h
    · exact Or.inr h
  refine ⟨hstep, ?_⟩
  rw [List.foldlM_cons, hstep]
  rfl

/-- A graph whose Conv has two consumers, making the (Conv, BN) candidate a
near miss. -/
def skipGraph : Graph :=
  { operations :=
      [{ name := "C1", type := "Conv", inputs := ["x", "w1"],
         outputs := ["v1"] },
       { name := "R", type := "Relu", inputs := ["v1"], outputs := ["v2"] },
       { name := "BN", type := "BatchNormalization",
         inputs := ["v1", "ga", "be", "mu", "si"], outputs := ["v3"] }],
    vars :=
      [{ name := "x", dest_ops := ["C1"] },
       { name := "w1", is_parameter := true, value := some (V.mat [[1]]),
         dest_ops := ["C1"] },
       { name := "v1", source_op := some "C1", dest_ops := ["R", "BN"] },
       { name := "v2", source_op := some "R" },
       { name := "ga", is_parameter := true, value := some (V.vec [1]),
         dest_ops := ["BN"] },
       { name := "be", is_parameter := true, value := some (V.vec [0]),
         dest_ops := ["BN"] },
       { name := "mu", is_parameter := true, value := some (V.vec [0]),
         dest_ops := ["BN"] },
       { name := "si", is_parameter := true, value := some (V.vec [1]),
         dest_ops := ["BN"] },
       { name := "v3", source_op := some "BN" }],
    inputs := ["x"], outputs := ["v2", "v3"] }

/-- The Conv record of `skipGraph`. -/
def skipConv : Operation :=
  { name := "C1", type := "Conv", inputs := ["x", "w1"], outputs := ["v1"] }

/-- The BatchNormalization record of `skipGraph`. -/
def skipBN : Operation :=
  { name := "BN", type := "BatchNormalization",
    inputs := ["v1", "ga", "be", "mu", "si"], outputs := ["v3"] }

/-- Witness for C8 on the two-consumer Conv graph. -/
theorem fuse_bn_skips_near_miss_witness :
    fuseBnStep (fun q => q) skipGraph ["C1", "BN"] = .ok skipGraph ∧
    List.foldlM (fuseBnStep (fun q => q)) skipGraph [["C1", "BN"]] =
      List.foldlM (fuseBnStep (fun q => q)) skipGraph [] :=
  fuse_bn_skips_near_miss (fun q => q) skipGraph "C1" "BN" skipConv skipBN []
    (by decide) (by decide) (by decide)

/-- Element access in a matrix, with zero default. -/
def rowsGet (m : List (List ℚ)) (i j : Nat) : ℚ := (m.getD i []).getD j 0

/-- Element access in a rank-3 tensor, with zero default. -/
def cubeGet (c : List (List (List ℚ))) (i o k : Nat) : ℚ :=
  ((c.getD i []).getD o []).getD k 0

/-- Spec-side closed-form scale: `gain / sqrt(variance + epsilon)`. -/
def specScale (sqrt : ℚ → ℚ) (gain variance : List ℚ) (eps : ℚ) : List ℚ :=
  List.zipWith (fun g v => g / sqrt (v + eps)) gain variance

/-- Spec-side fused bias: `scale * (old_bias - mean) + shift`,
elementwise. -/
def specNewBias : List ℚ → List ℚ → List ℚ → List ℚ → List ℚ
  | s :: ss, b :: bs, m :: ms, c :: cs =>
    (s * (b - m) + c) :: specNewBias ss bs ms cs
  | _, _, _, _ => []

theorem mapMul_getD (row : List ℚ) (s : ℚ) :
    ∀ j, (row.map (fun x => x * s)).getD j 0 = row.getD j 0 * s := by
  induction row with
  | nil => intro j; simp
  | cons x l ih =>
    intro j
    cases j with
    | zero => rfl
    | succ j => exact ih j

theorem zipMul_getD (row : List ℚ) :
    ∀ (scale : List ℚ) (j : Nat),
      (List.zipWith (fun x s => x * s) row scale).getD j 0 =
        row.getD j 0 * scale.getD j 0 := by
  induction row with
  | nil => intro scale j; simp
  | cons x l ih =>
    intro scale j
    cases scale with
    | nil => simp
    | cons s sc =>
      cases j with
      | zero => rfl
      | succ j => exact ih sc j

theorem scaleRows_get (w : List (List ℚ)) :
    ∀ (scale : List ℚ) (i j : Nat),
      rowsGet (scaleRows w scale) i j = rowsGet w i j * scale.getD i 0 := by
  induction w with
  | nil => intro scale i j; simp [scaleRows, rowsGet]
  | cons r w ih =>
    intro scale i j
    cases scale with
    | nil => simp [scaleRows, rowsGet]
    | cons s sc =>
      cases i with
      | zero => simpa [scaleRows, rowsGet] using mapMul_getD r s j
      | succ i => simpa [scaleRows, rowsGet] using ih sc i j

theorem scaleCols_get (w : List (List ℚ)) :
    ∀ (scale : List ℚ) (i j : Nat),
      rowsGet (scaleCols w scale) i j = rowsGet w i j * scale.getD j 0 := by
  induction w with
  | nil => intro scale i j; simp [scaleCols, rowsGet]
  | cons r w ih =>
    intro scale i j
    cases i with
    | zero => simpa [scaleCols, rowsGet] using zipMul_getD r scale j
    | succ i => simpa [scaleCols, rowsGet] using ih scale i j

theorem fuseBnBias_spec (sqrt : ℚ → ℚ) (eps : ℚ) :
    ∀ (alpha b mean varr beta : List ℚ),
      alpha.length = b.length → alpha.length = mean.length →
      alpha.length = varr.length → alpha.length = beta.length →
      fuseBnBias sqrt eps alpha b mean varr beta =
        specNewBias (specScale sqrt alpha varr eps) b mean beta := by
  intro alpha
  induction alpha with
  | nil => intro b mean varr beta _ _ _ _; rfl
  | cons a as ih =>
    intro b mean varr beta h1 h2 h3 h4
    cases b with
    | nil => simp at h1
    | cons b bs =>
      cases mean with
      | nil => simp at h2
      | cons m ms =>
        cases varr with
        | nil => simp at h3
        | cons v vs =>
          cases beta with
          | nil => simp at h4
          | cons c cs =>
            show (a * (b - m) / sqrt (v + eps) + c) :: _ =
              (a / sqrt (v + eps) * (b - m) + c) :: _
            rw [div_mul_eq_mul_div]
            exact congrArg _ (ih bs ms vs cs (by simpa using h1)
              (by simpa using h2) (by simpa using h3) (by simpa using h4))

theorem getD_take' {α : Type} (l : List α) (d : α) :
    ∀ (k i : Nat), i < k → (l.take k).getD i d = l.getD i d := by
  induction l with
  | nil => intro k i _; simp
  | cons a l ih =>
    intro k i hik
    cases k with
    | zero => omega
    | succ k =>
      cases i with
      | zero => rfl
      | succ i => exact ih k i (by omega)

theorem getD_drop' {α : Type} (l : List α) (d : α) :
    ∀ (k i : Nat), (l.drop k).getD i d = l.getD (k + i) d := by
  induction l with
  | nil => intro k i; simp
  | cons a l ih =>
    intro k i
    cases k with
    | zero => simp
    | succ k =>
      have h : k + 1 + i = (k + i) + 1 := by omega
      rw [h]
      exact ih k i

theorem getD_map_nil {α β : Type} (F : List α → List β) (hF : F [] = []) :
    ∀ (l : List (List α)) (i : Nat), (l.map F).getD i [] = F (l.getD i []) := by
  intro l
  induction l with
  | nil => intro i; simp [hF]
  | cons a l ih =>
    intro i
    cases i with
    | zero => rfl
    | succ i => exact ih i

theorem ctLayer_get (slice : List (List ℚ)) :
    ∀ (sg : List ℚ) (o k : Nat),
      ((List.zipWith (fun spat s => spat.map (fun x => x * s)) slice sg).getD
        o []).getD k 0 = ((slice.getD o []).getD k 0) * sg.getD o 0 := by
  induction slice with
  | nil => intro sg o k; simp
  | cons sp slice ih =>
    intro sg o k
    cases sg with
    | nil => simp
    | cons s sg =>
      cases o with
      | zero => exact mapMul_getD sp s k
      | succ o => exact ih sg o k

theorem chunk_cons {α : Type} (k : Nat) (l : List α) (hk : k ≠ 0)
    (hl : l ≠ []) : chunk k l = l.take k :: chunk k (l.drop k) := by
  cases l with
  | nil => exact absurd rfl hl
  | cons a l =>
    rw [chunk]
    rw [dif_neg hk]

/-- The grouped reshape-multiply-reshape of the `ConvTranspose` branch is,
elementwise, a per-output-channel scaling: entry `(i, o, k)` of the scaled
weight is entry `(i, o, k)` of the original times the scale of channel
`(i / icg) * ocg + o`. -/
theorem ctCore_get :
    ∀ (G icg ocg : Nat) (w : List (List (List ℚ))) (scale : List ℚ),
      w.length = G * icg → scale.length = G * ocg →
      (∀ slice ∈ w, slice.length = ocg) →
      ∀ i o k,
        cubeGet ((List.zipWith
          (fun wg sg => wg.map (fun slice =>
            List.zipWith (fun spat s => spat.map (fun x => x * s)) slice sg))
          (chunk icg w) (chunk ocg scale)).flatten) i o k =
        cubeGet w i o k * scale.getD ((i / icg) * ocg + o) 0 := by
  intro G
  induction G with
  | zero =>
    intro icg ocg w scale hw hs hrect i o k
    have hwnil : w = [] := List.length_eq_zero.mp (by simpa using hw)
    subst hwnil
    simp [chunk, cubeGet]
  | succ G ih =>
    intro icg ocg w scale hw hs hrect i o k
    by_cases hicg : icg = 0
    · subst hicg
      have hwnil : w = [] := List.length_eq_zero.mp (by simpa using hw)
      subst hwnil
      simp [chunk, cubeGet]
    by_cases hocg : ocg = 0
    · subst hocg
      have hsnil : scale = [] := List.length_eq_zero.mp (by simpa using hs)
      subst hsnil
      simp [chunk, cubeGet]
    have hwpos : 0 < w.length := by
      rw [hw]
      exact Nat.mul_pos (Nat.succ_pos G) (Nat.pos_of_ne_zero hicg)
    have hspos : 0 < scale.length := by
      rw [hs]
      exact Nat.mul_pos (Nat.succ_pos G) (Nat.pos_of_ne_zero hocg)
    have hwne : w ≠ [] := by
      intro h
      rw [h] at hwpos
      simp at hwpos
    have hsne : scale ≠ [] := by
      intro h
      rw [h] at hspos
      simp at hspos
    rw [chunk_cons icg w hicg hwne, chunk_cons ocg scale hocg hsne]
    rw [List.zipWith_cons_cons, List.flatten_cons]
    have hblock_len :
        ((w.take icg).map (fun slice =>
          List.zipWith (fun spat s => spat.map (fun x => x * s)) slice
            (scale.take ocg))).length = icg := by
      simp only [List.length_map, List.length_take]
      have : icg ≤ w.length := by
        rw [hw, Nat.succ_mul]
        omega
      omega
    by_cases hi : i < icg
    · unfold cubeGet
      rw [List.getD_append _ _ _ _ (by rw [hblock_len]; exact hi)]
      rw [getD_map_nil _ rfl, getD_take' w [] icg i hi]
      rw [ctLayer_get]
      rw [Nat.div_eq_of_lt hi]
      simp only [Nat.zero_mul, Nat.zero_add]
      by_cases ho : o < ocg
      · rw [getD_take' scale 0 ocg o ho]
      · have hslice : ((w.getD i []) : List (List ℚ)).length = ocg := by
          have hlt : i < w.length := by
            rw [hw, Nat.succ_mul]
            omega
          refine hrect _ ?_
          rw [List.getD_eq_getElem w [] hlt]
          exact List.getElem_mem hlt
        have hzero : ((w.getD i []).getD o []) = ([] : List ℚ) := by
          refine List.getD_eq_default _ _ ?_
          rw [hslice]
          omega
        rw [hzero]
        simp
    · unfold cubeGet
      rw [List.getD_append_right _ _ _ _ (by rw [hblock_len]; omega)]
      rw [hblock_len]
      have hw' : (w.drop icg).length = G * icg := by
        simp only [List.length_drop]
        rw [hw, Nat.succ_mul]
        omega
      have hs' : (scale.drop ocg).length = G * ocg := by
        simp only [List.length_drop]
        rw [hs, Nat.succ_mul]
        omega
      have hrect' : ∀ slice ∈ w.drop icg, slice.length = ocg :=
        fun sl hsl => hrect sl (List.mem_of_mem_drop hsl)
      have ihh := ih icg ocg (w.drop icg) (scale.drop ocg) hw' hs' hrect'
        (i - icg) o k
      unfold cubeGet at ihh
      rw [ihh]
      rw [getD_drop' w [] icg (i - icg), getD_drop' scale 0 ocg _]
      have hidx : icg + (i - icg) = i := by omega
      rw [hidx]
      have hdiv : i / icg = (i - icg) / icg + 1 := by
        have h2 := Nat.add_div_right (i - icg) (Nat.pos_of_ne_zero hicg)
        rw [Nat.sub_add_cancel (by omega : icg ≤ i)] at h2
        omega
      rw [hdiv, Nat.succ_mul]
      have hidx2 : ocg + ((i - icg) / icg * ocg + o) =
          (i - icg) / icg * ocg + ocg + o := by omega
      rw [hidx2]

/-- C2: the parameters fuse_bn commits satisfy the closed-form folding.
The epsilon attribute defaults to `1e-5`; the substituted old bias is a
zero tensor when the computing op has a single parameter; the fused bias
`alpha*(b-mean)/sqrt(var+eps)+beta` equals the spec form
`scale*(old_bias-mean)+shift` with `scale = gain/sqrt(variance+eps)`; and
each branch's fused weight is, elementwise, the old weight times the scale
of its output channel (rows for Conv and transposed Gemm, columns for
plain Gemm, grouped channels for ConvTranspose); finally every result the
fold commits carries exactly that fused bias. -/
theorem fuse_bn_closed_form (sqrt : ℚ → ℚ) :
    (∀ attrs : List (String × V), attrs.lookup "epsilon" = none →
      attrNum attrs "epsilon" (1 / 100000) = 1 / 100000) ∧
    (∀ (ctype : String) (cattrs : List (String × V)) (wv : V) (r : List ℚ),
      zerosFor ctype cattrs wv = some r → ∀ x ∈ r, x = 0) ∧
    (∀ (eps : ℚ) (alpha b mean varr beta : List ℚ),
      alpha.length = b.length → alpha.length = mean.length →
      alpha.length = varr.length → alpha.length = beta.length →
      fuseBnBias sqrt eps alpha b mean varr beta =
        specNewBias (specScale sqrt alpha varr eps) b mean beta) ∧
    (∀ (w : List (List ℚ)) (scale : List ℚ) (i j : Nat),
      rowsGet (scaleRows w scale) i j = rowsGet w i j * scale.getD i 0) ∧
    (∀ (w : List (List ℚ)) (scale : List ℚ) (i j : Nat),
      rowsGet (scaleCols w scale) i j = rowsGet w i j * scale.getD j 0) ∧
    (∀ (group icg ocg : Nat) (w : List (List (List ℚ))) (scale : List ℚ),
      0 < group → w.length = group * icg → scale.length = group * ocg →
      (∀ slice ∈ w, slice.length = ocg) →
      ∀ i o k, cubeGet (fuseBnCTWeight group w scale) i o k =
        cubeGet w i o k * scale.getD ((i / icg) * ocg + o) 0) ∧
    (∀ (ctype : String) (cattrs : List (String × V)) (wv : V)
      (b alpha beta mean varr : List ℚ) (eps : ℚ) (wq : V) (bq : List ℚ),
      fuseBnFold sqrt ctype cattrs wv b alpha beta mean varr eps =
        some (wq, bq) → bq = fuseBnBias sqrt eps alpha b mean varr beta) := by
  refine ⟨?_, ?_, ?_, ?_, ?_, ?_, ?_⟩
  · intro attrs h
    unfold attrNum
    rw [h]
  · intro ctype cattrs wv r h x hx
    unfold zerosFor at h
    split at h
    · split at h
      · cases h
        exact List.eq_of_mem_replicate hx
      · cases h
    · split at h
      · cases h
      · split at h
        · cases h
          exact List.eq_of_mem_replicate hx
        · cases h
          exact List.eq_of_mem_replicate hx
    · cases h
  · intro eps alpha b mean varr beta h1 h2 h3 h4
    exact fuseBnBias_spec sqrt eps alpha b mean varr beta h1 h2 h3 h4
  · intro w scale i j
    exact scaleRows_get w scale i j
  · intro w scale i j
    exact scaleCols_get w scale i j
  · intro group icg ocg w scale hg hw hs hrect i o k
    unfold fuseBnCTWeight
    have e1 : w.length / group = icg := by
      rw [hw]
      exact Nat.mul_div_cancel_left icg hg
    have e2 : scale.length / group = ocg := by
      rw [hs]
      exact Nat.mul_div_cancel_left ocg hg
    rw [e1, e2]
    exact ctCore_get group icg ocg w scale hw hs hrect i o k
  · intro ctype cattrs wv b alpha beta mean varr eps wq bq h
    unfold fuseBnFold at h
    split at h
    · simp only [Option.some.injEq, Prod.mk.injEq] at h
      exact h.2.symm
    · split at h <;>
        (simp only [Option.some.injEq, Prod.mk.injEq] at h
         exact h.2.symm)
    · simp only [Option.some.injEq, Prod.mk.injEq] at h
      exact h.2.symm
    · cases h

/-- Witness for C2 at concrete rational tensors. -/
theorem fuse_bn_closed_form_witness :
    attrNum [] "epsilon" (1 / 100000) = 1 / 100000 ∧
    (∀ x ∈ ([0, 0] : List ℚ), x = 0) ∧
    fuseBnBias (fun q => q) 0 [2] [3] [1] [4] [5] =
      specNewBias (specScale (fun q => q) [2] [4] 0) [3] [1] [5] ∧
    rowsGet (scaleRows [[1, 2], [3, 4]] [5, 6]) 1 0 =
      rowsGet [[1, 2], [3, 4]] 1 0 * ([5, 6] : List ℚ).getD 1 0 ∧
    rowsGet (scaleCols [[1, 2]] [5, 6]) 0 1 =
      rowsGet [[1, 2]] 0 1 * ([5, 6] : List ℚ).getD 1 0 ∧
    cubeGet (fuseBnCTWeight 2 [[[1]], [[2]]] [7, 8]) 1 0 0 =
      cubeGet [[[1]], [[2]]] 1 0 0 * ([7, 8] : List ℚ).getD (1 / 1 * 1 + 0) 0 ∧
    fuseBnBias (fun q => q) 0 [2] [3] [1] [4] [5] =
      fuseBnBias (fun q => q) 0 [2] [3] [1] [4] [5] :=
  ⟨(fuse_bn_closed_form (fun q => q)).1 [] rfl,
   fun x hx => (fuse_bn_closed_form (fun q => q)).2.1 "Conv" []
     (V.mat [[1], [1]]) [0, 0] rfl x hx,
   (fuse_bn_closed_form (fun q => q)).2.2.1 0 [2] [3] [1] [4] [5]
     rfl rfl rfl rfl,
   (fuse_bn_closed_form (fun q => q)).2.2.2.1 [[1, 2], [3, 4]] [5, 6] 1 0,
   (fuse_bn_closed_form (fun q => q)).2.2.2.2.1 [[1, 2]] [5, 6] 0 1,
   (fuse_bn_closed_form (fun q => q)).2.2.2.2.2.1 2 1 1 [[[1]], [[2]]] [7, 8]
     (by decide) rfl rfl (by decide) 1 0 0,
   (fuse_bn_closed_form (fun q => q)).2.2.2.2.2.2 "Conv" [] (V.mat [[1]])
     [3] [2] [5] [1] [4] 0 _ _ rfl⟩

/-!  Delete-isolated and truncation (translated from `mppq/ir/morph.py`,
`GraphFormatter`). -/

theorem rvOpUpdate_name (v : Variable) (n : String) (op : Operation) :
    (rvOpUpdate v n op).name = op.name := by
  unfold rvOpUpdate
  dsimp only
  split <;> split <;> rfl

theorem roVarUpdate_name (op : Operation) (n : String) (v : Variable) :
    (roVarUpdate op n v).name = v.name := by
  unfold roVarUpdate
  dsimp only
  split <;> split <;> rfl

theorem opNames_removeVariable (g : Graph) (n : String) :
    (g.removeVariable n).opNames = g.opNames := by
  unfold Graph.removeVariable
  rcases g.getVar n with _ | v
  · rfl
  · unfold Graph.opNames
    dsimp only
    rw [List.map_map]
    exact List.map_congr_left (fun op _ => rvOpUpdate_name v n op)

theorem varNames_removeOperation (g : Graph) (n : String) :
    (g.removeOperation n).varNames = g.varNames := by
  unfold Graph.removeOperation
  rcases g.getOp n with _ | op
  · rfl
  · unfold Graph.varNames
    dsimp only
    rw [List.map_map]
    exact List.map_congr_left (fun v _ => roVarUpdate_name op n v)

theorem opslen_removeVariable (g : Graph) (n : String) :
    (g.removeVariable n).operations.length = g.operations.length := by
  unfold Graph.removeVariable
  rcases g.getVar n with _ | v
  · rfl
  · exact List.length_map _ _

theorem varslen_removeOperation (g : Graph) (n : String) :
    (g.removeOperation n).vars.length = g.vars.length := by
  unfold Graph.removeOperation
  rcases g.getOp n with _ | op
  · rfl
  · exact List.length_map _ _

theorem opslen_removeOperation_le (g : Graph) (n : String) :
    (g.removeOperation n).operations.length ≤ g.operations.length := by
  unfold Graph.removeOperation
  rcases g.getOp n with _ | op
  · exact Nat.le_refl _
  · exact (List.eraseP_sublist _).length_le

theorem varslen_removeVariable_le (g : Graph) (n : String) :
    (g.removeVariable n).vars.length ≤ g.vars.length := by
  unfold Graph.removeVariable
  rcases g.getVar n with _ | v
  · exact Nat.le_refl _
  · exact (List.eraseP_sublist _).length_le

theorem getOp_isSome_iff (g : Graph) (n : String) :
    (g.getOp n).isSome ↔ n ∈ g.opNames := by
  unfold Graph.getOp Graph.opNames
  rw [List.find?_isSome]
  constructor
  · rintro ⟨x, hx, hpx⟩
    simp only [decide_eq_true_eq] at hpx
    exact List.mem_map.mpr ⟨x, hx, hpx⟩
  · rintro h
    rcases List.mem_map.mp h with ⟨x, hx, hnx⟩
    exact ⟨x, hx, by simpa using hnx⟩

theorem getVar_isSome_iff (g : Graph) (n : String) :
    (g.getVar n).isSome ↔ n ∈ g.varNames := by
  unfold Graph.getVar Graph.varNames
  rw [List.find?_isSome]
  constructor
  · rintro ⟨x, hx, hpx⟩
    simp only [decide_eq_true_eq] at hpx
    exact List.mem_map.mpr ⟨x, hx, hpx⟩
  · rintro h
    rcases List.mem_map.mp h with ⟨x, hx, hnx⟩
    exact ⟨x, hx, by simpa using hnx⟩

theorem opslen_removeOperation_lt (g : Graph) (n : String)
    (h : n ∈ g.opNames) :
    (g.removeOperation n).operations.length < g.operations.length := by
  have hsome : (g.getOp n).isSome := (getOp_isSome_iff g n).mpr h
  unfold Graph.removeOperation
  rcases hx : g.getOp n with _ | op
  · rw [hx] at hsome
    simp at hsome
  · have hfind : g.operations.find? (fun o => o.name = n) = some op := hx
    have hmem : op ∈ g.operations := List.mem_of_find?_eq_some hfind
    have hp := List.find?_some hfind
    have hlen := List.length_eraseP_of_mem (p := fun o => o.name = n) hmem hp
    have hpos : 0 < g.operations.length := List.length_pos.mpr
      (fun hnil => by rw [hnil] at hmem; simp at hmem)
    dsimp only
    omega

theorem varslen_removeVariable_lt (g : Graph) (n : String)
    (h : n ∈ g.varNames) :
    (g.removeVariable n).vars.length < g.vars.length := by
  have hsome : (g.getVar n).isSome := (getVar_isSome_iff g n).mpr h
  unfold Graph.removeVariable
  rcases hx : g.getVar n with _ | v
  · rw [hx] at hsome
    simp at hsome
  · have hfind : g.vars.find? (fun w => w.name = n) = some v := hx
    have hmem : v ∈ g.vars := List.mem_of_find?_eq_some hfind
    have hp := List.find?_some hfind
    have hlen := List.length_eraseP_of_mem (p := fun w => w.name = n) hmem hp
    have hpos : 0 < g.vars.length := List.length_pos.mpr
      (fun hnil => by rw [hnil] at hmem; simp at hmem)
    dsimp only
    omega

/-- Phase-1 blacklist of `delete_isolated`: operations with no downstream
consumer whose outputs are all undeclared. -/
def phase1Blacklist (g : Graph) : List Operation :=
  g.operations.filter (fun op =>
    (g.downstreamOps op).isEmpty &&
    op.outputs.all (fun m => !(g.outputs.contains m)))

/-- Remove one blacklisted operation: first each of its output variables,
then the operation itself. -/
def removeOpWithOutputs (g : Graph) (op : Operation) : Graph :=
  (op.outputs.foldl Graph.removeVariable g).removeOperation op.name

theorem foldl_removeVariable_opNames :
    ∀ (L : List String) (g : Graph),
      (L.foldl Graph.removeVariable g).opNames = g.opNames := by
  intro L
  induction L with
  | nil => intro g; rfl
  | cons a L ih =>
    intro g
    rw [List.foldl_cons, ih, opNames_removeVariable]

theorem foldl_removeVariable_opslen :
    ∀ (L : List String) (g : Graph),
      (L.foldl Graph.removeVariable g).operations.length =
        g.operations.length := by
  intro L
  induction L with
  | nil => intro g; rfl
  | cons a L ih =>
    intro g
    rw [List.foldl_cons, ih, opslen_removeVariable]

theorem removeOpWithOutputs_len_le (g : Graph) (op : Operation) :
    (removeOpWithOutputs g op).operations.length ≤ g.operations.length := by
  unfold removeOpWithOutputs
  calc ((op.outputs.foldl Graph.removeVariable g).removeOperation
        op.name).operations.length
      ≤ (op.outputs.foldl Graph.removeVariable g).operations.length :=
        opslen_removeOperation_le _ _
    _ = g.operations.length := foldl_removeVariable_opslen _ _

theorem removeOpWithOutputs_len_lt (g : Graph) (op : Operation)
    (h : op.name ∈ g.opNames) :
    (removeOpWithOutputs g op).operations.length < g.operations.length := by
  unfold removeOpWithOutputs
  have h2 : op.name ∈ (op.outputs.foldl Graph.removeVariable g).opNames := by
    rw [foldl_removeVariable_opNames]
    exact h
  calc ((op.outputs.foldl Graph.removeVariable g).removeOperation
        op.name).operations.length
      < (op.outputs.foldl Graph.removeVariable g).operations.length :=
        opslen_removeOperation_lt _ _ h2
    _ = g.operations.length := foldl_removeVariable_opslen _ _

theorem foldl_removeOpWithOutputs_len_le :
    ∀ (L : List Operation) (g : Graph),
      (L.foldl removeOpWithOutputs g).operations.length ≤
        g.operations.length := by
  intro L
  induction L with
  | nil => intro g; exact Nat.le_refl _
  | cons a L ih =>
    intro g
    rw [List.foldl_cons]
    exact Nat.le_trans (ih _) (removeOpWithOutputs_len_le g a)

theorem phase1_decrease (g : Graph) (h : phase1Blacklist g ≠ []) :
    ((phase1Blacklist g).foldl removeOpWithOutputs g).operations.length <
      g.operations.length := by
  rcases hbl : phase1Blacklist g with _ | ⟨op, rest⟩
  · exact absurd hbl h
  · have hop : op ∈ g.operations := by
      have : op ∈ phase1Blacklist g := by rw [hbl]; exact List.mem_cons_self _ _
      exact List.mem_of_mem_filter this
    have hname : op.name ∈ g.opNames := List.mem_map.mpr ⟨op, hop, rfl⟩
    rw [List.foldl_cons]
    exact Nat.lt_of_le_of_lt (foldl_removeOpWithOutputs_len_le rest _)
      (removeOpWithOutputs_len_lt g op hname)

/-- The operation-removal loop of `delete_isolated`: repeatedly remove
every blacklisted operation (with its output variables) until the
blacklist is empty. -/
def phase1F : Nat → Graph → Graph
  | 0, g => g
  | fuel + 1, g =>
    if (phase1Blacklist g).isEmpty then g
    else phase1F fuel ((phase1Blacklist g).foldl removeOpWithOutputs g)

/-- Entry point of the operation-removal loop; since each non-trivial
round strictly shrinks the operation list, this fuel is proven
sufficient below (the loop reaches an empty blacklist). -/
def phase1 (g : Graph) : Graph := phase1F (g.operations.length + 1) g

/-- Phase-2 blacklist of `delete_isolated`: rootless consumerless
variables, variables with a removed producer, variables consumed by a
removed operation, and isolated non-input variables. -/
def phase2Blacklist (g : Graph) : List Variable :=
  g.vars.filter (fun v =>
    (v.source_op.isNone && v.dest_ops.isEmpty) ||
    (match v.source_op with
     | some s => !(g.opNames.contains s)
     | none => false) ||
    (v.dest_ops.any (fun o => !(g.opNames.contains o))) ||
    (v.source_op.isNone && !(g.inputs.contains v.name) &&
      v.dest_ops.isEmpty))

theorem foldl_removeVariable_varslen_le :
    ∀ (L : List String) (g : Graph),
      (L.foldl Graph.removeVariable g).vars.length ≤ g.vars.length := by
  intro L
  induction L with
  | nil => intro g; exact Nat.le_refl _
  | cons a L ih =>
    intro g
    rw [List.foldl_cons]
    exact Nat.le_trans (ih _) (varslen_removeVariable_le g a)

theorem phase2_decrease (g : Graph) (h : phase2Blacklist g ≠ []) :
    (((phase2Blacklist g).map (fun v => v.name)).foldl
      Graph.removeVariable g).vars.length < g.vars.length := by
  rcases hbl : phase2Blacklist g with _ | ⟨v, rest⟩
  · exact absurd hbl h
  · have hv : v ∈ g.vars := by
      have : v ∈ phase2Blacklist g := by rw [hbl]; exact List.mem_cons_self _ _
      exact List.mem_of_mem_filter this
    have hname : v.name ∈ g.varNames := List.mem_map.mpr ⟨v, hv, rfl⟩
    rw [List.map_cons, List.foldl_cons]
    exact Nat.lt_of_le_of_lt (foldl_removeVariable_varslen_le _ _)
      (varslen_removeVariable_lt g v.name hname)

/-- The variable-removal loop of `delete_isolated`. -/
def phase2F : Nat → Graph → Graph
  | 0, g => g
  | fuel + 1, g =>
    if (phase2Blacklist g).isEmpty then g
    else phase2F fuel (((phase2Blacklist g).map (fun v => v.name)).foldl
      Graph.removeVariable g)

/-- Entry point of the variable-removal loop; each non-trivial round
strictly shrinks the variable list, so this fuel is proven sufficient
below. -/
def phase2 (g : Graph) : Graph := phase2F (g.vars.length + 1) g

/-- `delete_isolated`: the operation-removal loop followed by the
variable-removal loop. -/
def deleteIsolated (g : Graph) : Graph := phase2 (phase1 g)

/-- Worklist collection of the operations strictly downstream of the
truncation variable (breadth-first, a cursor walking an append-only queue,
no duplicate visits).  The generous fuel covers the worklist; exhaustion
would only truncate the collection. -/
def truncCollect (g : Graph) :
    Nat → List String → Nat → List String → List String
  | 0, _, _, mark => mark
  | fuel + 1, queue, didx, mark =>
    if h : didx < queue.length then
      if queue.get ⟨didx, h⟩ ∈ mark then
        truncCollect g fuel queue (didx + 1) mark
      else
        truncCollect g fuel (queue ++ g.downFrontier (queue.get ⟨didx, h⟩))
          (didx + 1) (mark ++ [queue.get ⟨didx, h⟩])
    else mark

/-- The collected downstream closure of a variable's consumers. -/
def truncMark (g : Graph) (v : Variable) : List String :=
  truncCollect g ((g.operations.length + 1) * (g.operations.length + 1) +
    v.dest_ops.length) v.dest_ops 0 []

/-- `truncate_on_var`: collect every operation strictly downstream of the
variable, remove them, optionally declare the variable a graph output, and
finish with `delete_isolated`.  A missing variable raises the lookup
error. -/
def truncateOnVar (g : Graph) (varName : String) (markAsOutput : Bool) :
    Except String Graph :=
  match g.getVar varName with
  | none => .error "KeyError"
  | some v =>
    let mark := truncMark g v
    let g1 := mark.foldl Graph.removeOperation g
    let g2 := if markAsOutput then g1.markVariableAsGraphOutput varName
              else g1
    .ok (deleteIsolated g2)

/-- Generic: erasing the unique `n`-named element leaves no `n`-named
element behind. -/
theorem eraseP_name_ne {α : Type} (nm : α → String) {l : List α}
    (h : (l.map nm).Nodup) (n : String) :
    ∀ y ∈ l.eraseP (fun x => nm x = n), nm y ≠ n := by
  induction l with
  | nil => intro y hy; simp at hy
  | cons a l ih =>
    simp only [List.map_cons, List.nodup_cons, List.mem_map] at h
    intro y hy
    by_cases ha : nm a = n
    · rw [List.eraseP_cons_of_pos (by simpa using ha)] at hy
      intro hyn
      exact h.1 ⟨y, hy, by rw [hyn, ha]⟩
    · rw [List.eraseP_cons_of_neg (by simpa using ha)] at hy
      rcases List.mem_cons.mp hy with rfl | hy'
      · exact ha
      · exact ih h.2 y hy'

/-- Generic: erasing `n`-named elements does not change lookups of other
names. -/
theorem find?_eraseP_ne {α : Type} (nm : α → String) {n m : String}
    (hnm : m ≠ n) :
    ∀ (l : List α),
      (l.eraseP (fun x => nm x = n)).find? (fun x => nm x = m) =
        l.find? (fun x => nm x = m) := by
  intro l
  induction l with
  | nil => rfl
  | cons a l ih =>
    by_cases ha : nm a = n
    · rw [List.eraseP_cons_of_pos (by simpa using ha)]
      rw [List.find?_cons_of_neg]
      simp only [decide_eq_true_eq]
      rw [ha]
      exact fun h => hnm h.symm
    · rw [List.eraseP_cons_of_neg (by simpa using ha)]
      by_cases ham : nm a = m
      · rw [List.find?_cons_of_pos _ (by simpa using ham),
          List.find?_cons_of_pos _ (by simpa using ham)]
      · rw [List.find?_cons_of_neg _ (by simpa using ham),
          List.find?_cons_of_neg _ (by simpa using ham)]
        exact ih

/-- Generic: lookups through a name-preserving record map. -/
theorem find?_map_name {α : Type} (nm : α → String) (F : α → α)
    (hF : ∀ x, nm (F x) = nm x) (m : String) :
    ∀ (l : List α),
      (l.map F).find? (fun x => nm x = m) =
        (l.find? (fun x => nm x = m)).map F := by
  intro l
  induction l with
  | nil => rfl
  | cons a l ih =>
    by_cases ham : nm a = m
    · rw [List.map_cons, List.find?_cons_of_pos _ (by simp [hF, ham]),
        List.find?_cons_of_pos _ (by simpa using ham)]
      rfl
    · rw [List.map_cons, List.find?_cons_of_neg _ (by simp [hF, ham]),
        List.find?_cons_of_neg _ (by simpa using ham)]
      exact ih

/-- Does the operation named `n` list `vn` among its inputs? -/
def opHasInputB (g : Graph) (n vn : String) : Bool :=
  match g.getOp n with
  | some op => vn ∈ op.inputs
  | none => false

/-- Does the operation named `n` list `vn` among its outputs? -/
def opHasOutputB (g : Graph) (n vn : String) : Bool :=
  match g.getOp n with
  | some op => vn ∈ op.outputs
  | none => false

/-- Is the variable named `m` sourced by the operation named `s`? -/
def varSrcIsB (g : Graph) (m s : String) : Bool :=
  match g.getVar m with
  | some w => w.source_op = some s
  | none => false

/-- If the variable has a recorded producer, that producer lists it
among its outputs. -/
def srcLinkedB (g : Graph) (v : Variable) : Bool :=
  match v.source_op with
  | some s => opHasOutputB g s v.name
  | none => true

/-- Structural well-formedness of a graph: unique names, per-operation
nodup outputs, and the central bidirectional back-reference invariant
between operations and variables. -/
structure GraphWF (g : Graph) : Prop where
  nodupOps : (g.operations.map (fun op => op.name)).Nodup
  nodupVars : (g.vars.map (fun v => v.name)).Nodup
  nodupOut : ∀ op ∈ g.operations, op.outputs.Nodup
  destLink : ∀ v ∈ g.vars, ∀ n ∈ v.dest_ops, opHasInputB g n v.name = true
  srcLink : ∀ v ∈ g.vars, srcLinkedB g v = true
  outBack : ∀ op ∈ g.operations, ∀ m ∈ op.outputs,
    varSrcIsB g m op.name = true

theorem GraphWF.srcLink_some {g : Graph} (h : GraphWF g) {v : Variable}
    (hv : v ∈ g.vars) {s : String} (hs : v.source_op = some s) :
    opHasOutputB g s v.name = true := by
  have h2 := h.srcLink v hv
  unfold srcLinkedB at h2
  rw [hs] at h2
  exact h2

theorem opHasInputB_true {g : Graph} {n vn : String} :
    opHasInputB g n vn = true ↔
      ∃ op, g.getOp n = some op ∧ vn ∈ op.inputs := by
  unfold opHasInputB
  rcases h : g.getOp n with _ | op <;> simp

theorem opHasOutputB_true {g : Graph} {n vn : String} :
    opHasOutputB g n vn = true ↔
      ∃ op, g.getOp n = some op ∧ vn ∈ op.outputs := by
  unfold opHasOutputB
  rcases h : g.getOp n with _ | op <;> simp

theorem varSrcIsB_true {g : Graph} {m s : String} :
    varSrcIsB g m s = true ↔
      ∃ w, g.getVar m = some w ∧ w.source_op = some s := by
  unfold varSrcIsB
  rcases h : g.getVar m with _ | w <;> simp

theorem rvOpUpdate_inputs (v : Variable) (n : String) (op : Operation) :
    (rvOpUpdate v n op).inputs =
      if op.name ∈ v.dest_ops then op.inputs.filter (fun i => i ≠ n)
      else op.inputs := by
  unfold rvOpUpdate
  dsimp only
  split <;> split <;> rfl

theorem rvOpUpdate_outputs (v : Variable) (n : String) (op : Operation) :
    (rvOpUpdate v n op).outputs =
      if v.source_op = some op.name then op.outputs.erase n
      else op.outputs := by
  unfold rvOpUpdate
  dsimp only
  split <;> split <;> rfl

theorem roVarUpdate_dest (op : Operation) (n : String) (v : Variable) :
    (roVarUpdate op n v).dest_ops =
      if v.name ∈ op.inputs then v.dest_ops.filter (fun d => d ≠ n)
      else v.dest_ops := by
  unfold roVarUpdate
  dsimp only
  split <;> split <;> rfl

theorem roVarUpdate_src (op : Operation) (n : String) (v : Variable) :
    (roVarUpdate op n v).source_op =
      if v.name ∈ op.outputs then none else v.source_op := by
  unfold roVarUpdate
  dsimp only
  split <;> split <;> rfl

theorem removeVariable_vars {g : Graph} {n : String} {v : Variable}
    (hv : g.getVar n = some v) :
    (g.removeVariable n).vars = g.vars.eraseP (fun w => w.name = n) := by
  unfold Graph.removeVariable
  rw [hv]

theorem removeVariable_operations {g : Graph} {n : String} {v : Variable}
    (hv : g.getVar n = some v) :
    (g.removeVariable n).operations = g.operations.map (rvOpUpdate v n) := by
  unfold Graph.removeVariable
  rw [hv]

theorem removeVariable_outputs {g : Graph} {n : String} {v : Variable}
    (hv : g.getVar n = some v) :
    (g.removeVariable n).outputs = g.outputs.filter (fun i => i ≠ n) := by
  unfold Graph.removeVariable
  rw [hv]

theorem removeVariable_inputs_decl {g : Graph} {n : String} {v : Variable}
    (hv : g.getVar n = some v) :
    (g.removeVariable n).inputs = g.inputs.filter (fun i => i ≠ n) := by
  unfold Graph.removeVariable
  rw [hv]

theorem removeOperation_operations {g : Graph} {n : String} {op : Operation}
    (ho : g.getOp n = some op) :
    (g.removeOperation n).operations =
      g.operations.eraseP (fun o => o.name = n) := by
  unfold Graph.removeOperation
  rw [ho]

theorem removeOperation_vars {g : Graph} {n : String} {op : Operation}
    (ho : g.getOp n = some op) :
    (g.removeOperation n).vars = g.vars.map (roVarUpdate op n) := by
  unfold Graph.removeOperation
  rw [ho]

theorem removeOperation_outputs (g : Graph) (n : String) :
    (g.removeOperation n).outputs = g.outputs := by
  unfold Graph.removeOperation
  rcases g.getOp n with _ | op <;> rfl

theorem removeOperation_inputs_decl (g : Graph) (n : String) :
    (g.removeOperation n).inputs = g.inputs := by
  unfold Graph.removeOperation
  rcases g.getOp n with _ | op <;> rfl

theorem removeVariable_getOp {g : Graph} {n : String} {v : Variable}
    (hv : g.getVar n = some v) (m : String) :
    (g.removeVariable n).getOp m = (g.getOp m).map (rvOpUpdate v n) := by
  unfold Graph.getOp
  rw [removeVariable_operations hv]
  exact find?_map_name Operation.name (rvOpUpdate v n) (rvOpUpdate_name v n)
    m g.operations

theorem removeVariable_getVar_ne {g : Graph} {n : String} {v : Variable}
    (hv : g.getVar n = some v) {m : String} (hm : m ≠ n) :
    (g.removeVariable n).getVar m = g.getVar m := by
  unfold Graph.getVar
  rw [removeVariable_vars hv]
  exact find?_eraseP_ne Variable.name hm g.vars

theorem removeOperation_getVar {g : Graph} {n : String} {op : Operation}
    (ho : g.getOp n = some op) (m : String) :
    (g.removeOperation n).getVar m = (g.getVar m).map (roVarUpdate op n) := by
  unfold Graph.getVar
  rw [removeOperation_vars ho]
  exact find?_map_name Variable.name (roVarUpdate op n) (roVarUpdate_name op n)
    m g.vars

theorem removeOperation_getOp_ne {g : Graph} {n : String} {op : Operation}
    (ho : g.getOp n = some op) {m : String} (hm : m ≠ n) :
    (g.removeOperation n).getOp m = g.getOp m := by
  unfold Graph.getOp
  rw [removeOperation_operations ho]
  exact find?_eraseP_ne Operation.name hm g.operations

theorem getVar_name {g : Graph} {n : String} {v : Variable}
    (hv : g.getVar n = some v) : v.name = n := by
  have := List.find?_some (show g.vars.find? (fun w => w.name = n) = some v
    from hv)
  simpa using this

theorem getOp_name {g : Graph} {n : String} {op : Operation}
    (ho : g.getOp n = some op) : op.name = n := by
  have := List.find?_some
    (show g.operations.find? (fun o => o.name = n) = some op from ho)
  simpa using this

theorem getVar_mem {g : Graph} {n : String} {v : Variable}
    (hv : g.getVar n = some v) : v ∈ g.vars :=
  List.mem_of_find?_eq_some hv

theorem getOp_mem {g : Graph} {n : String} {op : Operation}
    (ho : g.getOp n = some op) : op ∈ g.operations :=
  List.mem_of_find?_eq_some ho

theorem removeVariable_WF (g : Graph) (n : String) (hwf : GraphWF g) :
    GraphWF (g.removeVariable n) := by
  rcases hv : g.getVar n with _ | v
  · unfold Graph.removeVariable
    rw [hv]
    exact hwf
  constructor
  · have h := opNames_removeVariable g n
    unfold Graph.opNames at h
    rw [h]
    exact hwf.nodupOps
  · rw [removeVariable_vars hv]
    exact List.Nodup.sublist
      (List.Sublist.map _ (List.eraseP_sublist g.vars)) hwf.nodupVars
  · intro op' hop'
    rw [removeVariable_operations hv] at hop'
    rcases List.mem_map.mp hop' with ⟨op, hop, rfl⟩
    rw [rvOpUpdate_outputs]
    split
    · exact (hwf.nodupOut op hop).erase n
    · exact hwf.nodupOut op hop
  · intro w hw d hd
    rw [removeVariable_vars hv] at hw
    have hwne : w.name ≠ n := eraseP_name_ne Variable.name hwf.nodupVars n w hw
    have hwmem : w ∈ g.vars := (List.eraseP_sublist g.vars).subset hw
    rcases opHasInputB_true.mp (hwf.destLink w hwmem d hd) with ⟨q, hq, hmem⟩
    refine opHasInputB_true.mpr ⟨rvOpUpdate v n q, ?_, ?_⟩
    · rw [removeVariable_getOp hv d, hq]
      rfl
    · rw [rvOpUpdate_inputs]
      split
      · exact List.mem_filter.mpr ⟨hmem, by simpa using hwne⟩
      · exact hmem
  · intro w hw
    rw [removeVariable_vars hv] at hw
    have hwne : w.name ≠ n := eraseP_name_ne Variable.name hwf.nodupVars n w hw
    have hwmem : w ∈ g.vars := (List.eraseP_sublist g.vars).subset hw
    unfold srcLinkedB
    rcases hs : w.source_op with _ | s
    · rfl
    rcases opHasOutputB_true.mp (hwf.srcLink_some hwmem hs) with ⟨q, hq, hmem⟩
    refine opHasOutputB_true.mpr ⟨rvOpUpdate v n q, ?_, ?_⟩
    · rw [removeVariable_getOp hv s, hq]
      rfl
    · rw [rvOpUpdate_outputs]
      split
      · exact (List.mem_erase_of_ne hwne).mpr hmem
      · exact hmem
  · intro op' hop' m hm
    rw [removeVariable_operations hv] at hop'
    rcases List.mem_map.mp hop' with ⟨q, hq, rfl⟩
    rw [rvOpUpdate_outputs] at hm
    have hmq : m ∈ q.outputs := by
      revert hm
      split
      · exact fun hm => List.mem_of_mem_erase hm
      · exact id
    have hmn : m ≠ n := by
      intro heq
      rcases varSrcIsB_true.mp (hwf.outBack q hq m hmq) with ⟨u, hu, hus⟩
      rw [heq, hv] at hu
      cases hu
      rw [if_pos hus, heq] at hm
      exact (hwf.nodupOut q hq).not_mem_erase hm
    rcases varSrcIsB_true.mp (hwf.outBack q hq m hmq) with ⟨u, hu, hus⟩
    refine varSrcIsB_true.mpr ⟨u, ?_, ?_⟩
    · rw [removeVariable_getVar_ne hv hmn]
      exact hu
    · rw [rvOpUpdate_name]
      exact hus

theorem removeOperation_WF (g : Graph) (n : String) (hwf : GraphWF g) :
    GraphWF (g.removeOperation n) := by
  rcases ho : g.getOp n with _ | op
  · unfold Graph.removeOperation
    rw [ho]
    exact hwf
  have hopname : op.name = n := getOp_name ho
  have hopmem : op ∈ g.operations := getOp_mem ho
  constructor
  · rw [removeOperation_operations ho]
    exact List.Nodup.sublist
      (List.Sublist.map _ (List.eraseP_sublist g.operations)) hwf.nodupOps
  · have h := varNames_removeOperation g n
    unfold Graph.varNames at h
    rw [h]
    exact hwf.nodupVars
  · intro op' hop'
    rw [removeOperation_operations ho] at hop'
    exact hwf.nodupOut op' ((List.eraseP_sublist _).subset hop')
  · intro w' hw' d hd
    rw [removeOperation_vars ho] at hw'
    rcases List.mem_map.mp hw' with ⟨w, hw, rfl⟩
    rw [roVarUpdate_dest] at hd
    have hdw : d ∈ w.dest_ops := by
      revert hd
      split
      · exact fun hd => (List.mem_filter.mp hd).1
      · exact id
    have hdn : d ≠ n := by
      intro heq
      rcases opHasInputB_true.mp (hwf.destLink w hw d hdw) with ⟨q, hq, hqin⟩
      rw [heq, ho] at hq
      cases hq
      rw [if_pos hqin, heq] at hd
      have h2 := (List.mem_filter.mp hd).2
      simp at h2
    rcases opHasInputB_true.mp (hwf.destLink w hw d hdw) with ⟨q, hq, hqin⟩
    refine opHasInputB_true.mpr ⟨q, ?_, ?_⟩
    · rw [removeOperation_getOp_ne ho hdn]
      exact hq
    · rw [roVarUpdate_name]
      exact hqin
  · intro w' hw'
    rw [removeOperation_vars ho] at hw'
    rcases List.mem_map.mp hw' with ⟨w, hw, rfl⟩
    unfold srcLinkedB
    rcases hs : (roVarUpdate op n w).source_op with _ | s
    · rfl
    rw [roVarUpdate_src] at hs
    by_cases hwo : w.name ∈ op.outputs
    · rw [if_pos hwo] at hs
      cases hs
    rw [if_neg hwo] at hs
    have hsn : s ≠ n := by
      intro heq
      rcases opHasOutputB_true.mp (hwf.srcLink_some hw hs) with ⟨q, hq, hqo⟩
      rw [heq, ho] at hq
      cases hq
      exact hwo hqo
    rcases opHasOutputB_true.mp (hwf.srcLink_some hw hs) with ⟨q, hq, hqo⟩
    refine opHasOutputB_true.mpr ⟨q, ?_, ?_⟩
    · rw [removeOperation_getOp_ne ho hsn]
      exact hq
    · rw [roVarUpdate_name]
      exact hqo
  · intro op' hop' m hm
    rw [removeOperation_operations ho] at hop'
    have hne : op'.name ≠ n :=
      eraseP_name_ne Operation.name hwf.nodupOps n op' hop'
    have hmem : op' ∈ g.operations := (List.eraseP_sublist _).subset hop'
    rcases varSrcIsB_true.mp (hwf.outBack op' hmem m hm) with ⟨u, hu, hus⟩
    have huname : u.name = m := getVar_name hu
    have hmo : m ∉ op.outputs := by
      intro hmem'
      rcases varSrcIsB_true.mp (hwf.outBack op hopmem m hmem') with
        ⟨u2, hu2, hus2⟩
      rw [hu] at hu2
      cases hu2
      rw [hus] at hus2
      injection hus2 with h2
      exact hne (h2.trans hopname)
    refine varSrcIsB_true.mpr ⟨roVarUpdate op n u, ?_, ?_⟩
    · rw [removeOperation_getVar ho m, hu]
      rfl
    · rw [roVarUpdate_src, huname, if_neg hmo]
      exact hus

theorem contains_filter_ne (l : List String) {m n : String} (h : m ≠ n) :
    (l.filter (fun i => i ≠ n)).contains m = l.contains m := by
  by_cases hm : m ∈ l
  · have h1 : m ∈ l.filter (fun i => i ≠ n) :=
      List.mem_filter.mpr ⟨hm, by simpa using h⟩
    simp [hm, h1, h]
  · have h1 : m ∉ l.filter (fun i => i ≠ n) :=
      fun hc => hm (List.mem_filter.mp hc).1
    simp [hm, h1]

theorem all_congrB {α : Type} {l : List α} {p q : α → Bool}
    (h : ∀ a ∈ l, p a = q a) : l.all p = l.all q := by
  induction l with
  | nil => rfl
  | cons a l ih =>
    simp only [List.all_cons]
    rw [h a (List.mem_cons_self a l),
      ih (fun b hb => h b (List.mem_cons.mpr (Or.inr hb)))]

theorem find?_nm_of_mem {α : Type} (nm : α → String) {l : List α}
    (h : (l.map nm).Nodup) {x : α} (hx : x ∈ l) :
    l.find? (fun y => nm y = nm x) = some x := by
  induction l with
  | nil => simp at hx
  | cons a l ih =>
    simp only [List.map_cons, List.nodup_cons, List.mem_map] at h
    rcases List.mem_cons.mp hx with rfl | hx'
    · simp [List.find?]
    · rw [List.find?_cons_of_neg, ih h.2 hx']
      simp only [decide_eq_true_eq]
      intro hc
      exact h.1 ⟨x, hx', hc.symm⟩

theorem getVar_of_mem {g : Graph} (hwf : GraphWF g) {v : Variable}
    (hv : v ∈ g.vars) : g.getVar v.name = some v :=
  find?_nm_of_mem Variable.name hwf.nodupVars hv

theorem getOp_of_mem {g : Graph} (hwf : GraphWF g) {op : Operation}
    (ho : op ∈ g.operations) : g.getOp op.name = some op :=
  find?_nm_of_mem Operation.name hwf.nodupOps ho

theorem sourceless_not_output {g : Graph} (hwf : GraphWF g) {v : Variable}
    (hv : v ∈ g.vars) (hsrc : v.source_op = none) :
    ∀ op ∈ g.operations, v.name ∉ op.outputs := by
  intro op hop hmem
  rcases varSrcIsB_true.mp (hwf.outBack op hop v.name hmem) with ⟨u, hu, hus⟩
  rw [getVar_of_mem hwf hv] at hu
  cases hu
  rw [hsrc] at hus
  cases hus

theorem removeDead_operations {g : Graph} (hwf : GraphWF g) {v : Variable}
    (hv : v ∈ g.vars) (hsrc : v.source_op = none) (hdst : v.dest_ops = []) :
    (g.removeVariable v.name).operations = g.operations := by
  rw [removeVariable_operations (getVar_of_mem hwf hv)]
  have h : ∀ op ∈ g.operations, rvOpUpdate v v.name op = op := by
    intro op hop
    unfold rvOpUpdate
    rw [hsrc, hdst]
    simp
  calc g.operations.map (rvOpUpdate v v.name)
      = g.operations.map (fun op => op) := List.map_congr_left h
    _ = g.operations := List.map_id' g.operations

theorem removeDead_phase1Blacklist {g : Graph} (hwf : GraphWF g)
    {v : Variable} (hv : v ∈ g.vars) (hsrc : v.source_op = none)
    (hdst : v.dest_ops = []) :
    phase1Blacklist (g.removeVariable v.name) = phase1Blacklist g := by
  unfold phase1Blacklist
  rw [removeDead_operations hwf hv hsrc hdst]
  apply List.filter_congr
  intro op hop
  have hout : ∀ m ∈ op.outputs, m ≠ v.name := fun m hm heq =>
    sourceless_not_output hwf hv hsrc op hop (heq ▸ hm)
  have hds : (g.removeVariable v.name).downstreamOps op =
      g.downstreamOps op := by
    unfold Graph.downstreamOps
    have h2 : op.outputs.filterMap (g.removeVariable v.name).getVar =
        op.outputs.filterMap g.getVar :=
      List.filterMap_congr (fun m hm =>
        removeVariable_getVar_ne (getVar_of_mem hwf hv) (hout m hm))
    rw [h2]
  have hall : op.outputs.all
      (fun m => !((g.removeVariable v.name).outputs.contains m)) =
      op.outputs.all (fun m => !(g.outputs.contains m)) := by
    apply all_congrB
    intro m hm
    rw [removeVariable_outputs (getVar_of_mem hwf hv),
      contains_filter_ne g.outputs (hout m hm)]
  rw [hds, hall]

theorem phase2Blacklist_dead {g : Graph} (hwf : GraphWF g) :
    ∀ v ∈ phase2Blacklist g, v.source_op = none ∧ v.dest_ops = [] := by
  intro v hv
  unfold phase2Blacklist at hv
  have hvm := List.mem_of_mem_filter hv
  have hp := List.of_mem_filter hv
  have hb : (match v.source_op with
      | some s => !(g.opNames.contains s)
      | none => false) = false := by
    rcases hs : v.source_op with _ | s
    · rfl
    rcases opHasOutputB_true.mp (hwf.srcLink_some hvm hs) with ⟨q, hq, _⟩
    have hmem : s ∈ g.opNames :=
      List.mem_map.mpr ⟨q, getOp_mem hq, getOp_name hq⟩
    simp [hmem]
  have hc : v.dest_ops.any (fun o => !(g.opNames.contains o)) = false := by
    rw [List.any_eq_false]
    intro o ho
    rcases opHasInputB_true.mp (hwf.destLink v hvm o ho) with ⟨q, hq, _⟩
    have hmem : o ∈ g.opNames :=
      List.mem_map.mpr ⟨q, getOp_mem hq, getOp_name hq⟩
    simp [hmem]
  rw [hb, hc] at hp
  simp only [Bool.or_false, Bool.false_or, Bool.or_eq_true,
    Bool.and_eq_true] at hp
  rcases hp with ⟨h1, h2⟩ | ⟨⟨h1, _⟩, h2⟩ <;>
    exact ⟨Option.isNone_iff_eq_none.mp h1, List.isEmpty_iff.mp h2⟩

theorem foldl_removeDead {g : Graph} (hwf : GraphWF g) (L : List Variable)
    (hL : ∀ v ∈ L, v ∈ g.vars ∧ v.source_op = none ∧ v.dest_ops = [])
    (hnd : (L.map (fun v => v.name)).Nodup) :
    GraphWF ((L.map (fun v => v.name)).foldl Graph.removeVariable g) ∧
    phase1Blacklist
        ((L.map (fun v => v.name)).foldl Graph.removeVariable g) =
      phase1Blacklist g := by
  induction L generalizing g with
  | nil => exact ⟨hwf, rfl⟩
  | cons v L ih =>
    rcases hL v (List.mem_cons_self v L) with ⟨hvm, hsrc, hdst⟩
    simp only [List.map_cons, List.nodup_cons, List.mem_map] at hnd
    have hwf' := removeVariable_WF g v.name hwf
    have hbl := removeDead_phase1Blacklist hwf hvm hsrc hdst
    have hL' : ∀ w ∈ L, w ∈ (g.removeVariable v.name).vars ∧
        w.source_op = none ∧ w.dest_ops = [] := by
      intro w hw
      rcases hL w (List.mem_cons.mpr (Or.inr hw)) with ⟨hwm, hwsrc, hwdst⟩
      refine ⟨?_, hwsrc, hwdst⟩
      rw [removeVariable_vars (getVar_of_mem hwf hvm)]
      have hne : ¬(w.name = v.name) := fun hc => hnd.1 ⟨w, hw, hc⟩
      exact (List.mem_eraseP_of_neg (by simpa using hne)).mpr hwm
    rw [List.map_cons, List.foldl_cons]
    obtain ⟨hwfF, hblF⟩ := ih hwf' hL' hnd.2
    exact ⟨hwfF, hblF.trans hbl⟩

theorem phase2Blacklist_names_nodup {g : Graph} (hwf : GraphWF g) :
    ((phase2Blacklist g).map (fun v => v.name)).Nodup :=
  List.Nodup.sublist
    (List.Sublist.map _ (List.filter_sublist g.vars)) hwf.nodupVars

theorem phase2F_WF_blacklist : ∀ (fuel : Nat) (g : Graph), GraphWF g →
    GraphWF (phase2F fuel g) ∧
    phase1Blacklist (phase2F fuel g) = phase1Blacklist g := by
  intro fuel
  induction fuel with
  | zero => exact fun g hwf => ⟨hwf, rfl⟩
  | succ fuel ih =>
    intro g hwf
    have hstep : phase2F (fuel + 1) g = if (phase2Blacklist g).isEmpty then g
        else phase2F fuel (((phase2Blacklist g).map (fun v => v.name)).foldl
          Graph.removeVariable g) := rfl
    rw [hstep]
    by_cases hbl : (phase2Blacklist g).isEmpty
    · rw [if_pos hbl]
      exact ⟨hwf, rfl⟩
    · rw [if_neg hbl]
      have hprops : ∀ v ∈ phase2Blacklist g, v ∈ g.vars ∧
          v.source_op = none ∧ v.dest_ops = [] := fun v hv =>
        ⟨List.mem_of_mem_filter hv, phase2Blacklist_dead hwf v hv⟩
      obtain ⟨hwf', hbl'⟩ := foldl_removeDead hwf (phase2Blacklist g) hprops
        (phase2Blacklist_names_nodup hwf)
      obtain ⟨hwfF, hblF⟩ := ih _ hwf'
      exact ⟨hwfF, hblF.trans hbl'⟩

theorem foldl_removeVariable_WF :
    ∀ (L : List String) (g : Graph), GraphWF g →
      GraphWF (L.foldl Graph.removeVariable g) := by
  intro L
  induction L with
  | nil => exact fun g hwf => hwf
  | cons a L ih =>
    intro g hwf
    rw [List.foldl_cons]
    exact ih _ (removeVariable_WF g a hwf)

theorem removeOpWithOutputs_WF (g : Graph) (op : Operation)
    (hwf : GraphWF g) : GraphWF (removeOpWithOutputs g op) :=
  removeOperation_WF _ _ (foldl_removeVariable_WF op.outputs g hwf)

theorem foldl_removeOpWithOutputs_WF :
    ∀ (L : List Operation) (g : Graph), GraphWF g →
      GraphWF (L.foldl removeOpWithOutputs g) := by
  intro L
  induction L with
  | nil => exact fun g hwf => hwf
  | cons a L ih =>
    intro g hwf
    rw [List.foldl_cons]
    exact ih _ (removeOpWithOutputs_WF g a hwf)

theorem phase1F_WF : ∀ (fuel : Nat) (g : Graph), GraphWF g →
    GraphWF (phase1F fuel g) := by
  intro fuel
  induction fuel with
  | zero => exact fun g hwf => hwf
  | succ fuel ih =>
    intro g hwf
    have hstep : phase1F (fuel + 1) g = if (phase1Blacklist g).isEmpty then g
        else phase1F fuel ((phase1Blacklist g).foldl removeOpWithOutputs g) :=
      rfl
    rw [hstep]
    by_cases hbl : (phase1Blacklist g).isEmpty
    · rw [if_pos hbl]
      exact hwf
    · rw [if_neg hbl]
      exact ih _ (foldl_removeOpWithOutputs_WF _ g hwf)

theorem phase1F_exit : ∀ (fuel : Nat) (g : Graph),
    g.operations.length < fuel → phase1Blacklist (phase1F fuel g) = [] := by
  intro fuel
  induction fuel with
  | zero => exact fun g h => absurd h (Nat.not_lt_zero _)
  | succ fuel ih =>
    intro g h
    have hstep : phase1F (fuel + 1) g = if (phase1Blacklist g).isEmpty then g
        else phase1F fuel ((phase1Blacklist g).foldl removeOpWithOutputs g) :=
      rfl
    rw [hstep]
    by_cases hbl : (phase1Blacklist g).isEmpty
    · rw [if_pos hbl]
      exact List.isEmpty_iff.mp hbl
    · rw [if_neg hbl]
      apply ih
      have hdec := phase1_decrease g
        (fun hc => hbl (by rw [hc]; rfl))
      omega

theorem phase2F_exit : ∀ (fuel : Nat) (g : Graph),
    g.vars.length < fuel → phase2Blacklist (phase2F fuel g) = [] := by
  intro fuel
  induction fuel with
  | zero => exact fun g h => absurd h (Nat.not_lt_zero _)
  | succ fuel ih =>
    intro g h
    have hstep : phase2F (fuel + 1) g = if (phase2Blacklist g).isEmpty then g
        else phase2F fuel (((phase2Blacklist g).map (fun v => v.name)).foldl
          Graph.removeVariable g) := rfl
    rw [hstep]
    by_cases hbl : (phase2Blacklist g).isEmpty
    · rw [if_pos hbl]
      exact List.isEmpty_iff.mp hbl
    · rw [if_neg hbl]
      apply ih
      have hdec := phase2_decrease g
        (fun hc => hbl (by rw [hc]; rfl))
      omega

theorem phase1F_of_empty (fuel : Nat) (g : Graph)
    (h : phase1Blacklist g = []) : phase1F fuel g = g := by
  cases fuel with
  | zero => rfl
  | succ fuel =>
    have hstep : phase1F (fuel + 1) g = if (phase1Blacklist g).isEmpty then g
        else phase1F fuel ((phase1Blacklist g).foldl removeOpWithOutputs g) :=
      rfl
    rw [hstep, if_pos (by rw [h]; rfl)]

theorem phase2F_of_empty (fuel : Nat) (g : Graph)
    (h : phase2Blacklist g = []) : phase2F fuel g = g := by
  cases fuel with
  | zero => rfl
  | succ fuel =>
    have hstep : phase2F (fuel + 1) g = if (phase2Blacklist g).isEmpty then g
        else phase2F fuel (((phase2Blacklist g).map (fun v => v.name)).foldl
          Graph.removeVariable g) := rfl
    rw [hstep, if_pos (by rw [h]; rfl)]

theorem phase1Blacklist_nil_prop {g : Graph} (h : phase1Blacklist g = []) :
    ∀ op ∈ g.operations,
      (∃ m ∈ op.outputs, m ∈ g.outputs) ∨ g.downstreamOps op ≠ [] := by
  intro op hop
  have hnot : ¬(((g.downstreamOps op).isEmpty &&
      op.outputs.all (fun m => !(g.outputs.contains m))) = true) := by
    intro hc
    have hmem : op ∈ phase1Blacklist g := List.mem_filter.mpr ⟨hop, hc⟩
    rw [h] at hmem
    simp at hmem
  by_cases hd : g.downstreamOps op = []
  · left
    by_contra hno
    push_neg at hno
    apply hnot
    rw [Bool.and_eq_true]
    refine ⟨by rw [hd]; rfl, ?_⟩
    rw [List.all_eq_true]
    intro m hm
    simp [hno m hm]
  · right
    exact hd

/-- C3: `delete_isolated` reaches a fixed point in one invocation.  On a
well-formed graph, after the pass every remaining operation either
produces a declared graph output or still has a live downstream consumer,
and invoking the pass a second time returns the same graph, removing no
further operation or variable. -/
theorem delete_isolated_fixed_point_and_idempotent (g : Graph)
    (hwf : GraphWF g) :
    (∀ op ∈ (deleteIsolated g).operations,
      (∃ m ∈ op.outputs, m ∈ (deleteIsolated g).outputs) ∨
        (deleteIsolated g).downstreamOps op ≠ []) ∧
    deleteIsolated (deleteIsolated g) = deleteIsolated g := by
  have hwf1 : GraphWF (phase1 g) := phase1F_WF _ g hwf
  have hbl1 : phase1Blacklist (phase1 g) = [] :=
    phase1F_exit _ g (Nat.lt_succ_self _)
  obtain ⟨hwf2, hbl2⟩ := phase2F_WF_blacklist ((phase1 g).vars.length + 1)
    (phase1 g) hwf1
  have hblD : phase1Blacklist (deleteIsolated g) = [] := hbl2.trans hbl1
  have hbl2D : phase2Blacklist (deleteIsolated g) = [] :=
    phase2F_exit _ _ (Nat.lt_succ_self _)
  refine ⟨phase1Blacklist_nil_prop hblD, ?_⟩
  show phase2 (phase1 (deleteIsolated g)) = deleteIsolated g
  rw [show phase1 (deleteIsolated g) = deleteIsolated g from
    phase1F_of_empty _ _ hblD]
  exact phase2F_of_empty _ _ hbl2D

/-- A concrete well-formed graph with one isolated operation Q (its output
w reaches no consumer and is not a declared output). -/
def gDI : Graph :=
  { operations :=
      [{ name := "P", type := "Conv", inputs := ["x"], outputs := ["o"] },
       { name := "Q", type := "Relu", inputs := ["x"], outputs := ["w"] }],
    vars :=
      [{ name := "x", dest_ops := ["P", "Q"] },
       { name := "o", source_op := some "P" },
       { name := "w", source_op := some "Q" }],
    inputs := ["x"],
    outputs := ["o"] }

/-- Witness for C3 at the concrete graph `gDI`. -/
theorem delete_isolated_fixed_point_and_idempotent_witness :
    (∀ op ∈ (deleteIsolated gDI).operations,
      (∃ m ∈ op.outputs, m ∈ (deleteIsolated gDI).outputs) ∨
        (deleteIsolated gDI).downstreamOps op ≠ []) ∧
    deleteIsolated (deleteIsolated gDI) = deleteIsolated gDI :=
  delete_isolated_fixed_point_and_idempotent gDI
    ⟨by decide, by decide, by decide, by decide, by decide, by decide⟩

theorem varNames_removeVariable_subset (g : Graph) (m : String) :
    ∀ x ∈ (g.removeVariable m).varNames, x ∈ g.varNames := by
  rcases hv : g.getVar m with _ | v
  · unfold Graph.removeVariable
    rw [hv]
    exact fun x hx => hx
  · intro x hx
    unfold Graph.varNames at hx ⊢
    rw [removeVariable_vars hv] at hx
    rcases List.mem_map.mp hx with ⟨w, hw, rfl⟩
    exact List.mem_map.mpr ⟨w, (List.eraseP_sublist _).subset hw, rfl⟩

theorem opNames_removeOperation_subset (g : Graph) (m : String) :
    ∀ x ∈ (g.removeOperation m).opNames, x ∈ g.opNames := by
  rcases ho : g.getOp m with _ | op
  · unfold Graph.removeOperation
    rw [ho]
    exact fun x hx => hx
  · intro x hx
    unfold Graph.opNames at hx ⊢
    rw [removeOperation_operations ho] at hx
    rcases List.mem_map.mp hx with ⟨o, hoo, rfl⟩
    exact List.mem_map.mpr ⟨o, (List.eraseP_sublist _).subset hoo, rfl⟩

theorem not_mem_opNames_removeOperation (g : Graph)
    (hnd : (g.operations.map (fun op => op.name)).Nodup) (n : String) :
    n ∉ (g.removeOperation n).opNames := by
  rcases ho : g.getOp n with _ | op
  · unfold Graph.removeOperation
    rw [ho]
    intro hx
    rcases List.mem_map.mp hx with ⟨o, hoo, hname⟩
    have hno := List.find?_eq_none.mp ho o hoo
    simp only [decide_eq_true_eq] at hno
    exact hno hname
  · intro hx
    unfold Graph.opNames at hx
    rw [removeOperation_operations ho] at hx
    rcases List.mem_map.mp hx with ⟨o, hoo, hname⟩
    exact eraseP_name_ne Operation.name hnd n o hoo hname

theorem foldl_removeOperation_WF :
    ∀ (L : List String) (g : Graph), GraphWF g →
      GraphWF (L.foldl Graph.removeOperation g) := by
  intro L
  induction L with
  | nil => exact fun g hwf => hwf
  | cons a L ih =>
    intro g hwf
    rw [List.foldl_cons]
    exact ih _ (removeOperation_WF g a hwf)

theorem foldl_removeOperation_opNames_subset :
    ∀ (L : List String) (g : Graph),
      ∀ x ∈ (L.foldl Graph.removeOperation g).opNames, x ∈ g.opNames := by
  intro L
  induction L with
  | nil => exact fun g x hx => hx
  | cons a L ih =>
    intro g x hx
    rw [List.foldl_cons] at hx
    exact opNames_removeOperation_subset g a x (ih _ x hx)

theorem foldl_removeOperation_kills :
    ∀ (L : List String) (g : Graph), GraphWF g →
      ∀ n ∈ L, n ∉ (L.foldl Graph.removeOperation g).opNames := by
  intro L
  induction L with
  | nil => intro g _ n hn; simp at hn
  | cons a L ih =>
    intro g hwf n hn
    rw [List.foldl_cons]
    rcases List.mem_cons.mp hn with rfl | hn'
    · intro hx
      exact not_mem_opNames_removeOperation g hwf.nodupOps n
        (foldl_removeOperation_opNames_subset L _ n hx)
    · exact ih _ (removeOperation_WF g a hwf) n hn'

/-- The declared-output survival invariant: a name is still a declared
output, or its variable has been deleted from the graph altogether. -/
def OutAlive (g : Graph) (n : String) : Prop :=
  n ∈ g.outputs ∨ n ∉ g.varNames

theorem removeVariable_OutAlive {g : Graph} (hwf : GraphWF g)
    (m n : String) (h : OutAlive g n) : OutAlive (g.removeVariable m) n := by
  rcases h with h | h
  · rcases hv : g.getVar m with _ | v
    · left
      unfold Graph.removeVariable
      rw [hv]
      exact h
    · by_cases hnm : n = m
      · right
        subst hnm
        intro hx
        unfold Graph.varNames at hx
        rw [removeVariable_vars hv] at hx
        rcases List.mem_map.mp hx with ⟨w, hw, hname⟩
        exact eraseP_name_ne Variable.name hwf.nodupVars n w hw hname
      · left
        rw [removeVariable_outputs hv]
        exact List.mem_filter.mpr ⟨h, by simpa using hnm⟩
  · right
    intro hx
    exact h (varNames_removeVariable_subset g m n hx)

theorem removeOperation_OutAlive (g : Graph) (m n : String)
    (h : OutAlive g n) : OutAlive (g.removeOperation m) n := by
  rcases h with h | h
  · left
    rw [removeOperation_outputs]
    exact h
  · right
    rw [show (g.removeOperation m).varNames = g.varNames from
      varNames_removeOperation g m]
    exact h

theorem foldl_removeVariable_OutAlive (n : String) :
    ∀ (L : List String) (g : Graph), GraphWF g → OutAlive g n →
      OutAlive (L.foldl Graph.removeVariable g) n := by
  intro L
  induction L with
  | nil => exact fun g _ h => h
  | cons a L ih =>
    intro g hwf h
    rw [List.foldl_cons]
    exact ih _ (removeVariable_WF g a hwf) (removeVariable_OutAlive hwf a n h)

theorem removeOpWithOutputs_OutAlive {g : Graph} (hwf : GraphWF g)
    (op : Operation) (n : String) (h : OutAlive g n) :
    OutAlive (removeOpWithOutputs g op) n :=
  removeOperation_OutAlive _ _ _
    (foldl_removeVariable_OutAlive n op.outputs g hwf h)

theorem foldl_removeOpWithOutputs_OutAlive (n : String) :
    ∀ (L : List Operation) (g : Graph), GraphWF g → OutAlive g n →
      OutAlive (L.foldl removeOpWithOutputs g) n := by
  intro L
  induction L with
  | nil => exact fun g _ h => h
  | cons a L ih =>
    intro g hwf h
    rw [List.foldl_cons]
    exact ih _ (removeOpWithOutputs_WF g a hwf)
      (removeOpWithOutputs_OutAlive hwf a n h)

theorem phase1F_OutAlive (n : String) : ∀ (fuel : Nat) (g : Graph),
    GraphWF g → OutAlive g n → OutAlive (phase1F fuel g) n := by
  intro fuel
  induction fuel with
  | zero => exact fun g _ h => h
  | succ fuel ih =>
    intro g hwf h
    have hstep : phase1F (fuel + 1) g = if (phase1Blacklist g).isEmpty then g
        else phase1F fuel ((phase1Blacklist g).foldl removeOpWithOutputs g) :=
      rfl
    rw [hstep]
    by_cases hbl : (phase1Blacklist g).isEmpty
    · rw [if_pos hbl]
      exact h
    · rw [if_neg hbl]
      exact ih _ (foldl_removeOpWithOutputs_WF _ g hwf)
        (foldl_removeOpWithOutputs_OutAlive n _ g hwf h)

theorem phase2F_OutAlive (n : String) : ∀ (fuel : Nat) (g : Graph),
    GraphWF g → OutAlive g n → OutAlive (phase2F fuel g) n := by
  intro fuel
  induction fuel with
  | zero => exact fun g _ h => h
  | succ fuel ih =>
    intro g hwf h
    have hstep : phase2F (fuel + 1) g = if (phase2Blacklist g).isEmpty then g
        else phase2F fuel (((phase2Blacklist g).map (fun v => v.name)).foldl
          Graph.removeVariable g) := rfl
    rw [hstep]
    by_cases hbl : (phase2Blacklist g).isEmpty
    · rw [if_pos hbl]
      exact h
    · rw [if_neg hbl]
      exact ih _ (foldl_removeVariable_WF _ g hwf)
        (foldl_removeVariable_OutAlive n _ g hwf h)

theorem deleteIsolated_OutAlive {g : Graph} (hwf : GraphWF g) (n : String)
    (h : OutAlive g n) : OutAlive (deleteIsolated g) n :=
  phase2F_OutAlive n _ _ (phase1F_WF _ g hwf) (phase1F_OutAlive n _ g hwf h)

theorem deleteIsolated_WF {g : Graph} (hwf : GraphWF g) :
    GraphWF (deleteIsolated g) :=
  (phase2F_WF_blacklist _ _ (phase1F_WF _ g hwf)).1

theorem mark_operations (g : Graph) (n : String) :
    (g.markVariableAsGraphOutput n).operations = g.operations := by
  unfold Graph.markVariableAsGraphOutput
  split <;> rfl

theorem mark_vars (g : Graph) (n : String) :
    (g.markVariableAsGraphOutput n).vars = g.vars := by
  unfold Graph.markVariableAsGraphOutput
  split <;> rfl

theorem mark_getOp (g : Graph) (n m : String) :
    (g.markVariableAsGraphOutput n).getOp m = g.getOp m := by
  unfold Graph.getOp
  rw [mark_operations]

theorem mark_getVar (g : Graph) (n m : String) :
    (g.markVariableAsGraphOutput n).getVar m = g.getVar m := by
  unfold Graph.getVar
  rw [mark_vars]

theorem mark_opNames (g : Graph) (n : String) :
    (g.markVariableAsGraphOutput n).opNames = g.opNames := by
  unfold Graph.opNames
  rw [mark_operations]

theorem mark_mem_outputs (g : Graph) (n : String) :
    n ∈ (g.markVariableAsGraphOutput n).outputs := by
  unfold Graph.markVariableAsGraphOutput
  split
  · assumption
  · simp

theorem mark_WF {g : Graph} (hwf : GraphWF g) (n : String) :
    GraphWF (g.markVariableAsGraphOutput n) := by
  constructor
  · rw [mark_operations]
    exact hwf.nodupOps
  · rw [mark_vars]
    exact hwf.nodupVars
  · intro op hop
    rw [mark_operations] at hop
    exact hwf.nodupOut op hop
  · intro v hv d hd
    rw [mark_vars] at hv
    rcases opHasInputB_true.mp (hwf.destLink v hv d hd) with ⟨q, hq, hm⟩
    exact opHasInputB_true.mpr ⟨q, by rw [mark_getOp]; exact hq, hm⟩
  · intro v hv
    rw [mark_vars] at hv
    have h2 := hwf.srcLink v hv
    unfold srcLinkedB at h2 ⊢
    rcases hs : v.source_op with _ | s
    · rfl
    · rw [hs] at h2
      rcases opHasOutputB_true.mp h2 with ⟨q, hq, hm⟩
      exact opHasOutputB_true.mpr ⟨q, by rw [mark_getOp]; exact hq, hm⟩
  · intro op hop m hm
    rw [mark_operations] at hop
    rcases varSrcIsB_true.mp (hwf.outBack op hop m hm) with ⟨u, hu, hus⟩
    exact varSrcIsB_true.mpr ⟨u, by rw [mark_getVar]; exact hu, hus⟩

theorem removeOpWithOutputs_opNames_subset (g : Graph) (op : Operation) :
    ∀ x ∈ (removeOpWithOutputs g op).opNames, x ∈ g.opNames := by
  intro x hx
  unfold removeOpWithOutputs at hx
  have h2 := opNames_removeOperation_subset _ op.name x hx
  rw [foldl_removeVariable_opNames] at h2
  exact h2

theorem foldl_removeOpWithOutputs_opNames_subset :
    ∀ (L : List Operation) (g : Graph),
      ∀ x ∈ (L.foldl removeOpWithOutputs g).opNames, x ∈ g.opNames := by
  intro L
  induction L with
  | nil => exact fun g x hx => hx
  | cons a L ih =>
    intro g x hx
    rw [List.foldl_cons] at hx
    exact removeOpWithOutputs_opNames_subset g a x (ih _ x hx)

theorem phase1F_opNames_subset : ∀ (fuel : Nat) (g : Graph),
    ∀ x ∈ (phase1F fuel g).opNames, x ∈ g.opNames := by
  intro fuel
  induction fuel with
  | zero => exact fun g x hx => hx
  | succ fuel ih =>
    intro g x hx
    have hstep : phase1F (fuel + 1) g = if (phase1Blacklist g).isEmpty then g
        else phase1F fuel ((phase1Blacklist g).foldl removeOpWithOutputs g) :=
      rfl
    rw [hstep] at hx
    by_cases hbl : (phase1Blacklist g).isEmpty
    · rw [if_pos hbl] at hx
      exact hx
    · rw [if_neg hbl] at hx
      exact foldl_removeOpWithOutputs_opNames_subset _ g x (ih _ x hx)

theorem phase2F_opNames : ∀ (fuel : Nat) (g : Graph),
    (phase2F fuel g).opNames = g.opNames := by
  intro fuel
  induction fuel with
  | zero => exact fun g => rfl
  | succ fuel ih =>
    intro g
    have hstep : phase2F (fuel + 1) g = if (phase2Blacklist g).isEmpty then g
        else phase2F fuel (((phase2Blacklist g).map (fun v => v.name)).foldl
          Graph.removeVariable g) := rfl
    rw [hstep]
    by_cases hbl : (phase2Blacklist g).isEmpty
    · rw [if_pos hbl]
    · rw [if_neg hbl, ih, foldl_removeVariable_opNames]

theorem deleteIsolated_opNames_subset (g : Graph) :
    ∀ x ∈ (deleteIsolated g).opNames, x ∈ g.opNames := by
  intro x hx
  have h2 : x ∈ (phase1 g).opNames := by
    rw [← phase2F_opNames ((phase1 g).vars.length + 1) (phase1 g)]
    exact hx
  exact phase1F_opNames_subset _ g x h2

/-- A graph where truncating on `v` (output of A, consumed by B) also
makes the sibling branch C isolated: A and C both read x, B adds their
results v and w into the declared output y. -/
def gC4 : Graph :=
  { operations :=
      [{ name := "A", type := "Conv", inputs := ["x"], outputs := ["v"] },
       { name := "C", type := "Conv", inputs := ["x"], outputs := ["w"] },
       { name := "B", type := "Add", inputs := ["v", "w"],
         outputs := ["y"] }],
    vars :=
      [{ name := "x", dest_ops := ["A", "C"] },
       { name := "v", source_op := some "A", dest_ops := ["B"] },
       { name := "w", source_op := some "C", dest_ops := ["B"] },
       { name := "y", source_op := some "B" }],
    inputs := ["x"],
    outputs := ["y"] }

/-- The record of the truncation variable in `gC4`. -/
def vC4 : Variable :=
  { name := "v", source_op := some "A", dest_ops := ["B"] }

/-- A minimal graph whose truncation variable x is a sourceless graph
input: x feeds A which produces the declared output y. -/
def gC4b : Graph :=
  { operations :=
      [{ name := "A", type := "Relu", inputs := ["x"], outputs := ["y"] }],
    vars :=
      [{ name := "x", dest_ops := ["A"] },
       { name := "y", source_op := some "A" }],
    inputs := ["x"],
    outputs := ["y"] }

/-- Counterexample to C4.  In `gC4`, truncating on `v` with
mark-as-output removes the operation C even though C is not in the
downstream worklist closure of `v` (the closure is just {B}): the final
isolated-operation sweep of `delete_isolated` deletes the now-dead
sibling branch.  And in `gC4b`, truncating on the sourceless input `x`
does not leave `x` among the declared outputs: the isolated-variable
sweep deletes `x` together with its output declaration. -/
theorem truncate_on_var_counterexample :
    ("C" ∈ gC4.opNames ∧ "C" ∉ truncMark gC4 vC4 ∧
      (truncateOnVar gC4 "v" true).toOption.map
        (fun g2 => decide ("C" ∈ g2.opNames)) = some false) ∧
    (truncateOnVar gC4b "x" true).toOption.map
      (fun g2 => decide ("x" ∈ g2.outputs)) = some false := by decide

/-- C4 (amended): for every variable v present in a well-formed graph,
`truncate_on_var(v, mark_as_output=True)` succeeds and removes at least
the worklist closure of v's consumers; only original operations may
survive (the pass never invents operations, though the final
isolated-node sweep may remove operations outside the closure); v is
still a declared output unless its variable was itself removed by the
isolated-variable sweep; and the result is again well-formed (so no
variable references an absent operation afterwards). -/
theorem truncate_on_var_amended (g : Graph) (hwf : GraphWF g)
    (v : Variable) (hv : g.getVar v.name = some v) :
    ∃ g2, truncateOnVar g v.name true = Except.ok g2 ∧
      (∀ n ∈ truncMark g v, n ∉ g2.opNames) ∧
      (∀ n ∈ g2.opNames, n ∈ g.opNames) ∧
      (v.name ∈ g2.outputs ∨ v.name ∉ g2.varNames) ∧
      GraphWF g2 := by
  have hstep : truncateOnVar g v.name true = Except.ok (deleteIsolated
      (Graph.markVariableAsGraphOutput
        ((truncMark g v).foldl Graph.removeOperation g) v.name)) := by
    unfold truncateOnVar
    rw [hv]
    rfl
  have hwfm : GraphWF ((truncMark g v).foldl Graph.removeOperation g) :=
    foldl_removeOperation_WF _ g hwf
  have hwfk : GraphWF (Graph.markVariableAsGraphOutput
      ((truncMark g v).foldl Graph.removeOperation g) v.name) :=
    mark_WF hwfm v.name
  refine ⟨_, hstep, ?_, ?_, ?_, deleteIsolated_WF hwfk⟩
  · intro n hn hx
    have h1 := deleteIsolated_opNames_subset _ n hx
    rw [mark_opNames] at h1
    exact foldl_removeOperation_kills (truncMark g v) g hwf n hn h1
  · intro n hx
    have h1 := deleteIsolated_opNames_subset _ n hx
    rw [mark_opNames] at h1
    exact foldl_removeOperation_opNames_subset _ g n h1
  · exact deleteIsolated_OutAlive hwfk v.name
      (Or.inl (mark_mem_outputs _ v.name))

/-- Witness for the amended C4 theorem at the concrete graph `gC4`. -/
theorem truncate_on_var_amended_witness :
    ∃ g2, truncateOnVar gC4 "v" true = Except.ok g2 ∧
      (∀ n ∈ truncMark gC4 vC4, n ∉ g2.opNames) ∧
      (∀ n ∈ g2.opNames, n ∈ gC4.opNames) ∧
      ("v" ∈ g2.outputs ∨ "v" ∉ g2.varNames) ∧
      GraphWF g2 :=
  truncate_on_var_amended gC4
    ⟨by decide, by decide, by decide, by decide, by decide, by decide⟩
    vC4 (by decide)
